import Mathlib

/-!
Verification development for the WinDock release script (`release.py`).

The script is a single sequential pipeline (`ReleaseManager.run`) over the
file system, the git repository and two external hosts.  We embed it
shallowly:

* text is `List Char` (`Txt`); Python `str` literals appear via `.toList`;
* the two `re.sub` calls of `update_homebrew_formula_version` use patterns
  of the shape  `literal-prefix ++ [\d\.]+ ++ literal-suffix`; they are
  modelled by an executable left-to-right scanner (`rsub`) with maximal
  munch for the character class, which coincides with Python's greedy
  matching because in both patterns the character after the class
  (`"` resp. `/`) is not in the class, so no backtracking can succeed;
* the OS / git / network outcomes the script branches on are an explicit
  environment record, and the mutable state (files, repository, current
  working directory) an explicit world record, so each method of
  `ReleaseManager` is a function on these records; Python exceptions are
  `Except` values.
-/

/-- Text, as the Python code manipulates `str` contents. -/
abbrev Txt := List Char

/-- The character class `[\d\.]` of both regular expressions in
`update_homebrew_formula_version`: a (decimal) digit or a literal dot. -/
def isClassChar (c : Char) : Bool := c.isDigit || c == '.'

/-- `stripPre p l` returns `some r` with `l = p ++ r` when the literal `p`
is a prefix of `l`, and `none` otherwise (literal-part matching). -/
def stripPre : List Char → List Char → Option (List Char)
  | [], l => some l
  | _ :: _, [] => none
  | p :: ps, c :: cs => if p = c then stripPre ps cs else none

/-- Maximal munch of `[\d\.]*`: splits `l` into its longest prefix of
class characters and the rest. -/
def munch : List Char → List Char × List Char
  | [] => ([], [])
  | c :: cs =>
    if isClassChar c then ((munch cs).1.cons c, (munch cs).2) else ([], c :: cs)

/-- Anchored match of the pattern `P ++ [\d\.]+ ++ S` at the head of `l`;
returns the remainder after the match.  Maximal munch is exact for the two
patterns of `update_homebrew_formula_version` because the first character
of each suffix literal is not in the class. -/
def tryMatch (P S : List Char) (l : List Char) : Option (List Char) :=
  match stripPre P l with
  | none => none
  | some r1 =>
    if (munch r1).1 = [] then none else stripPre S (munch r1).2

theorem stripPre_eq_some {P l r : List Char} (h : stripPre P l = some r) :
    l = P ++ r := by
  induction P generalizing l with
  | nil => simpa [stripPre] using h
  | cons p ps ih =>
    cases l with
    | nil => simp [stripPre] at h
    | cons c cs =>
      by_cases hpc : p = c
      · simp only [stripPre, if_pos hpc] at h
        simpa [hpc] using congrArg (c :: ·) (ih h)
      · simp [stripPre, hpc] at h

theorem stripPre_append (P r : List Char) : stripPre P (P ++ r) = some r := by
  induction P with
  | nil => rfl
  | cons p ps ih => simp [stripPre, ih]

theorem munch_eq_of_class {a : List Char} (b : List Char)
    (ha : ∀ c ∈ a, isClassChar c)
    (hb : ∀ c cs, b = c :: cs → ¬ isClassChar c) :
    munch (a ++ b) = (a, b) := by
  induction a with
  | nil =>
    cases b with
    | nil => rfl
    | cons c cs =>
      have := hb c cs rfl
      simp [munch, this]
  | cons x xs ih =>
    have hx : isClassChar x := ha x (by simp)
    have ih' := ih (fun c hc => ha c (by simp [hc]))
    simp [munch, hx, ih']

theorem munch_spec (l : List Char) :
    l = (munch l).1 ++ (munch l).2 ∧ (∀ c ∈ (munch l).1, isClassChar c) ∧
      (∀ c cs, (munch l).2 = c :: cs → ¬ isClassChar c) := by
  induction l with
  | nil => simp [munch]
  | cons x xs ih =>
    by_cases hx : isClassChar x
    · refine ⟨?_, ?_, ?_⟩
      · simpa [munch, hx] using congrArg (x :: ·) ih.1
      · intro c hc
        simp only [munch, hx, if_pos, List.cons_eq_cons] at hc
        rcases List.mem_cons.mp (by simpa [munch, hx] using hc) with h | h
        · exact h ▸ hx
        · exact ih.2.1 c h
      · intro c cs hcs
        exact ih.2.2 c cs (by simpa [munch, hx] using hcs)
    · refine ⟨by simp [munch, hx], by simp [munch, hx], ?_⟩
      intro c cs hcs
      simp only [munch, hx, if_neg, List.cons_eq_cons] at hcs
      obtain ⟨h1, _⟩ : x = c ∧ xs = cs := by simpa [munch, hx] using hcs
      exact h1 ▸ hx

/-- Characterisation of a successful anchored match, assuming the first
character of the suffix literal is not in the class (true for `"` and `/`). -/
theorem tryMatch_some_iff {P : List Char} {s0 : Char} {ss : List Char}
    (hs0 : ¬ isClassChar s0) {l r : List Char} :
    tryMatch P (s0 :: ss) l = some r ↔
      ∃ m, m ≠ [] ∧ (∀ c ∈ m, isClassChar c) ∧ l = P ++ m ++ (s0 :: ss) ++ r := by
  constructor
  · intro h
    unfold tryMatch at h
    cases hsp : stripPre P l with
    | none => rw [hsp] at h; exact absurd h (by simp)
    | some r1 =>
      rw [hsp] at h
      dsimp only at h
      by_cases hm : (munch r1).1 = []
      · rw [if_pos hm] at h; exact absurd h (by simp)
      · rw [if_neg hm] at h
        have hr1 := munch_spec r1
        obtain ⟨m, rest, hmr⟩ : ∃ m rest, munch r1 = (m, rest) := ⟨_, _, rfl⟩
        rw [hmr] at h hm hr1
        dsimp only at h hm hr1
        have h2 := stripPre_eq_some h
        refine ⟨m, hm, hr1.2.1, ?_⟩
        have hl := stripPre_eq_some hsp
        rw [hl, hr1.1, h2]
        simp
  · rintro ⟨m, hm, hmc, hl⟩
    unfold tryMatch
    have h1 : stripPre P l = some (m ++ (s0 :: ss) ++ r) := by
      rw [hl]; simpa using stripPre_append P (m ++ (s0 :: ss) ++ r)
    rw [h1]
    have h2 : munch (m ++ ((s0 :: ss) ++ r)) = (m, (s0 :: ss) ++ r) :=
      munch_eq_of_class ((s0 :: ss) ++ r) hmc
        (by rintro c cs hc; obtain ⟨h1', _⟩ : s0 = c ∧ ss ++ r = cs := by
              simpa using hc
            exact h1' ▸ hs0)
    simp only [List.append_assoc] at h2 ⊢
    rw [h2]
    dsimp only
    rw [if_neg hm]
    simpa using stripPre_append (s0 :: ss) r

theorem tryMatch_length {P S l r : List Char} (h : tryMatch P S l = some r) :
    r.length < l.length := by
  unfold tryMatch at h
  cases hsp : stripPre P l with
  | none => rw [hsp] at h; exact absurd h (by simp)
  | some r1 =>
    rw [hsp] at h
    dsimp only at h
    by_cases hm : (munch r1).1 = []
    · rw [if_pos hm] at h; exact absurd h (by simp)
    · rw [if_neg hm] at h
      have hl := stripPre_eq_some hsp
      have hr1 := (munch_spec r1).1
      obtain ⟨m, rest, hmr⟩ : ∃ m rest, munch r1 = (m, rest) := ⟨_, _, rfl⟩
      rw [hmr] at h hm hr1
      dsimp only at h hm hr1
      have h2 := stripPre_eq_some h
      have hmlen : 0 < m.length := List.length_pos.mpr hm
      have : l.length = P.length + (m.length + (S.length + r.length)) := by
        rw [hl, hr1, h2]; simp [List.length_append]
      omega

/-- The model of `re.sub(P ++ "[\d\.]+" ++ S, P ++ N ++ S, ·)`: scan left to
right, replace each non-overlapping leftmost match, copy everything else. -/
def rsub (P S N : List Char) : List Char → List Char
  | [] => []
  | c :: cs =>
    match h : tryMatch P S (c :: cs) with
    | some r => P ++ N ++ S ++ rsub P S N r
    | none => c :: rsub P S N cs
termination_by l => l.length
decreasing_by
  · exact tryMatch_length h
  · simp

theorem rsub_cons_some {P S N : List Char} {c : Char} {cs r : List Char}
    (h : tryMatch P S (c :: cs) = some r) :
    rsub P S N (c :: cs) = P ++ N ++ S ++ rsub P S N r := by
  rw [rsub]
  split
  · rename_i r' h'
    rw [h] at h'
    simpa using congrArg (fun x => P ++ N ++ S ++ rsub P S N x)
      (Option.some_injective _ h').symm
  · rename_i h'
    rw [h] at h'
    exact absurd h' (by simp)

theorem rsub_cons_none {P S N : List Char} {c : Char} {cs : List Char}
    (h : tryMatch P S (c :: cs) = none) :
    rsub P S N (c :: cs) = c :: rsub P S N cs := by
  rw [rsub]
  split
  · rename_i r' h'
    rw [h] at h'
    exact absurd h' (by simp)
  · rfl

/-- If no character of `w` equals the head of the prefix literal, the
scanner copies `w` verbatim and continues behind it. -/
theorem rsub_walk {p0 : Char} (ps S N : List Char) {w : List Char}
    (hw : ∀ c ∈ w, c ≠ p0) (X : List Char) :
    rsub (p0 :: ps) S N (w ++ X) = w ++ rsub (p0 :: ps) S N X := by
  induction w with
  | nil => rfl
  | cons c cs ih =>
    have hc : c ≠ p0 := hw c (by simp)
    have hnone : tryMatch (p0 :: ps) S (c :: (cs ++ X)) = none := by
      unfold tryMatch
      have hsp : stripPre (p0 :: ps) (c :: (cs ++ X)) = none := by
        simp [stripPre, if_neg (Ne.symm hc)]
      rw [hsp]
    have ih' := ih (fun c hc2 => hw c (by simp [hc2]))
    rw [List.cons_append, rsub_cons_none hnone, ih']
    rfl

/-- The pattern matches at the head of its own replacement text, consuming
exactly the replacement. -/
theorem tryMatch_repl {P : List Char} {s0 : Char} {ss N : List Char}
    (hs0 : ¬ isClassChar s0) (hN : N ≠ []) (hNc : ∀ c ∈ N, isClassChar c)
    (X : List Char) :
    tryMatch P (s0 :: ss) (P ++ N ++ (s0 :: ss) ++ X) = some X :=
  (tryMatch_some_iff hs0).mpr ⟨N, hN, hNc, by simp⟩

theorem rsub_repl {P : List Char} {s0 : Char} {ss N : List Char}
    (hP : P ≠ []) (hs0 : ¬ isClassChar s0) (hN : N ≠ [])
    (hNc : ∀ c ∈ N, isClassChar c) (X : List Char) :
    rsub P (s0 :: ss) N (P ++ N ++ (s0 :: ss) ++ X) =
      P ++ N ++ (s0 :: ss) ++ rsub P (s0 :: ss) N X := by
  cases P with
  | nil => exact absurd rfl hP
  | cons p0 ps =>
    have h := @tryMatch_repl (p0 :: ps) _ ss _ hs0 hN hNc X
    simp only [List.cons_append] at h ⊢
    rw [rsub_cons_some h]
    simp

theorem append_cases {a b c d : List Char} (h : a ++ b = c ++ d) :
    (∃ e, c = a ++ e ∧ b = e ++ d) ∨ (∃ e, a = c ++ e ∧ d = e ++ b) :=
  List.append_eq_append_iff.mp h

/-- Central frame lemma: substituting with pattern `G = Pg ++ [\d\.]+ ++ Sg`
(replacement core `N`) in `t` cannot create a match of pattern
`F = Pf ++ [\d\.]+ ++ Sf` at the head of `u ++ t` where there was none.
The side conditions are facts about the two pattern literals, checked by
`decide` at the concrete patterns of `update_homebrew_formula_version`. -/
theorem noNewMatch
    {pf0 : Char} {pfs : List Char} {sf0 : Char} {sfs : List Char}
    {pg0 : Char} {pgs : List Char} {sg0 : Char} {sgs : List Char}
    {N : List Char}
    (hsf0 : ¬ isClassChar sf0) (hsg0 : ¬ isClassChar sg0)
    (hpg0 : ¬ isClassChar pg0)
    (hSfPg : ∀ c ∈ sf0 :: sfs, c ≠ pg0)
    (hHead : pf0 ≠ pg0 ∨ (pf0 :: pfs = pg0 :: pgs ∧ sf0 :: sfs = sg0 :: sgs))
    (hOv : ∀ v ∈ (pf0 :: pfs).tails, v ≠ [] → v ≠ pf0 :: pfs →
      ¬ ((pg0 :: pgs) <+: v) ∧
      ((v <+: (pg0 :: pgs)) →
        ¬ isClassChar (((pg0 :: pgs).drop v.length).headD '"'))) :
    ∀ n (t u : List Char), t.length ≤ n →
      tryMatch (pf0 :: pfs) (sf0 :: sfs) (u ++ t) = none →
      tryMatch (pf0 :: pfs) (sf0 :: sfs)
        (u ++ rsub (pg0 :: pgs) (sg0 :: sgs) N t) = none := by
  intro n
  induction n with
  | zero =>
    intro t u ht h
    have ht0 : t = [] := List.length_eq_zero.mp (Nat.le_zero.mp ht)
    subst ht0
    simpa [rsub] using h
  | succ n ih =>
    intro t u ht h
    cases htm : tryMatch (pg0 :: pgs) (sg0 :: sgs) t with
    | none =>
      cases t with
      | nil => simpa [rsub] using h
      | cons d t' =>
        rw [rsub_cons_none htm]
        have h' : tryMatch (pf0 :: pfs) (sf0 :: sfs) ((u ++ [d]) ++ t') = none := by
          simpa using h
        have hlen : t'.length ≤ n := by
          simp only [List.length_cons] at ht; omega
        have := ih t' (u ++ [d]) hlen h'
        simpa using this
    | some r =>
      obtain ⟨M0, hM0ne, hM0c, htdec⟩ := (tryMatch_some_iff hsg0).mp htm
      cases t with
      | nil => simp [tryMatch, stripPre] at htm
      | cons d t' =>
        rw [rsub_cons_some htm]
        by_contra hcon
        obtain ⟨r', hr'⟩ := Option.ne_none_iff_exists'.mp hcon
        obtain ⟨M, hMne, hMc, hdec⟩ := (tryMatch_some_iff hsf0).mp hr'
        -- hdec : u ++ (Pg ++ N ++ Sg ++ rsub r) = Pf ++ M ++ Sf ++ r'
        cases u with
        | nil =>
          rcases hHead with hne | ⟨hPeq, hSeq⟩
          · have : pg0 = pf0 := by
              simp only [List.nil_append, List.cons_append, List.append_assoc,
                List.cons.injEq] at hdec
              exact hdec.1
            exact hne this.symm
          · rw [hPeq, hSeq] at h
            have : tryMatch (pg0 :: pgs) (sg0 :: sgs) (d :: t') = none := by
              simpa using h
            rw [this] at htm
            exact absurd htm (by simp)
        | cons u0 us =>
          have hune : u0 :: us ≠ ([] : List Char) := by simp
          -- normalise: (u ++ A) = Pf ++ (M ++ (Sf ++ r'))
          have hdec' : (u0 :: us) ++ ((pg0 :: pgs) ++ (N ++ ((sg0 :: sgs) ++
              rsub (pg0 :: pgs) (sg0 :: sgs) N r))) =
              (pf0 :: pfs) ++ (M ++ ((sf0 :: sfs) ++ r')) := by
            simpa [List.append_assoc] using hdec
          rcases append_cases hdec' with ⟨v, hPf, hA⟩ | ⟨e, hu, hQ⟩
          · -- Pf = u ++ v
            cases v with
            | nil =>
              -- A = M ++ Sf ++ r', heads: pg0 = M.head which is a class char
              cases M with
              | nil => exact hMne rfl
              | cons m0 ms =>
                have : pg0 = m0 := by
                  simp only [List.nil_append, List.cons_append, List.cons.injEq] at hA
                  exact hA.1
                exact hpg0 (this ▸ hMc m0 (by simp))
            | cons v0 vs =>
              have hvsuf : (v0 :: vs) <:+ (pf0 :: pfs) := ⟨u0 :: us, hPf.symm⟩
              have hvne2 : (v0 :: vs) ≠ pf0 :: pfs := by
                intro hveq
                have hlen := congrArg List.length hPf
                rw [hveq] at hlen
                simp [List.length_append] at hlen
                omega
              obtain ⟨hnpre, hcond⟩ := hOv (v0 :: vs)
                ((List.mem_tails _ _).mpr hvsuf) (by simp) hvne2
              rcases append_cases hA with ⟨w, hvw, _⟩ | ⟨w, hPgw, hw2⟩
              · -- v = Pg ++ w : the G-prefix literal is a prefix of v
                exact hnpre ⟨w, hvw.symm⟩
              · -- Pg = v ++ w
                cases w with
                | nil =>
                  have : (pg0 :: pgs) <+: (v0 :: vs) := by
                    rw [hPgw]; simp
                  exact hnpre this
                | cons c2 w' =>
                  have hvpre : (v0 :: vs) <+: (pg0 :: pgs) := ⟨c2 :: w', hPgw.symm⟩
                  have hdrop : (pg0 :: pgs).drop (v0 :: vs).length = c2 :: w' := by
                    rw [hPgw]; exact List.drop_left _ _
                  have hc2 : ¬ isClassChar c2 := by
                    have := hcond hvpre
                    rw [hdrop] at this
                    simpa using this
                  cases M with
                  | nil => exact hMne rfl
                  | cons m0 ms =>
                    have : m0 = c2 := by
                      simp only [List.cons_append, List.cons.injEq] at hw2
                      exact hw2.1
                    exact hc2 (this ▸ hMc m0 (by simp))
          · -- u = Pf ++ e,  M ++ (Sf ++ r') = e ++ A
            rcases append_cases hQ.symm with ⟨f, hM, hA2⟩ | ⟨f, he, hSfr⟩
            · -- M = e ++ f, A = f ++ (Sf ++ r')
              cases f with
              | nil =>
                have : pg0 = sf0 := by
                  simp only [List.nil_append, List.cons_append, List.cons.injEq] at hA2
                  exact hA2.1
                exact hSfPg sf0 (by simp) this.symm
              | cons c4 f' =>
                have : pg0 = c4 := by
                  simp only [List.cons_append, List.cons.injEq] at hA2
                  exact hA2.1
                have hc4 : c4 ∈ M := by rw [hM]; exact List.mem_append_right e (by simp)
                exact hpg0 (this ▸ hMc c4 hc4)
            -- e = M ++ f, Sf ++ r' = f ++ A
            · rcases append_cases hSfr with ⟨g, hf, _⟩ | ⟨g, hSf, hA3⟩
              · -- f = Sf ++ g : the full pattern F already matched inside u
                have humatch : tryMatch (pf0 :: pfs) (sf0 :: sfs)
                    ((u0 :: us) ++ (d :: t')) = some (g ++ (d :: t')) := by
                  refine (tryMatch_some_iff hsf0).mpr ⟨M, hMne, hMc, ?_⟩
                  rw [hu, he, hf]
                  simp [List.append_assoc]
                rw [humatch] at h
                exact absurd h (by simp)
              · cases g with
                | nil =>
                  -- Sf = f, A = r' : again F matched inside u exactly
                  have hf2 : f = sf0 :: sfs := by simpa using hSf.symm
                  have humatch : tryMatch (pf0 :: pfs) (sf0 :: sfs)
                      ((u0 :: us) ++ (d :: t')) = some (d :: t') := by
                    refine (tryMatch_some_iff hsf0).mpr ⟨M, hMne, hMc, ?_⟩
                    rw [hu, he, hf2]
                    simp [List.append_assoc]
                  rw [humatch] at h
                  exact absurd h (by simp)
                | cons c3 g' =>
                  have hc3mem : c3 ∈ sf0 :: sfs := by
                    rw [hSf]; exact List.mem_append_right f (by simp)
                  have : c3 = pg0 := by
                    simp only [List.cons_append, List.cons.injEq] at hA3
                    exact hA3.1.symm
                  exact hSfPg c3 hc3mem this

theorem rsub_nil (P S N : List Char) : rsub P S N [] = [] := by rw [rsub]

/-- Generic idempotence of one substitution pass. -/
theorem rsub_idem
    {p0 : Char} {ps : List Char} {s0 : Char} {ss N : List Char}
    (hs0 : ¬ isClassChar s0) (hN : N ≠ []) (hNc : ∀ c ∈ N, isClassChar c)
    (hp0 : ¬ isClassChar p0)
    (hSP : ∀ c ∈ s0 :: ss, c ≠ p0)
    (hOv : ∀ v ∈ (p0 :: ps).tails, v ≠ [] → v ≠ p0 :: ps →
      ¬ ((p0 :: ps) <+: v) ∧
      ((v <+: (p0 :: ps)) →
        ¬ isClassChar (((p0 :: ps).drop v.length).headD '"'))) :
    ∀ n t, t.length ≤ n →
      rsub (p0 :: ps) (s0 :: ss) N (rsub (p0 :: ps) (s0 :: ss) N t) =
        rsub (p0 :: ps) (s0 :: ss) N t := by
  intro n
  induction n with
  | zero =>
    intro t ht
    have ht0 : t = [] := List.length_eq_zero.mp (Nat.le_zero.mp ht)
    subst ht0
    rw [rsub_nil, rsub_nil]
  | succ n ih =>
    intro t ht
    cases htm : tryMatch (p0 :: ps) (s0 :: ss) t with
    | some r =>
      cases t with
      | nil => simp [tryMatch, stripPre] at htm
      | cons d t' =>
        rw [rsub_cons_some htm]
        rw [rsub_repl (by simp) hs0 hN hNc]
        have hr : r.length ≤ n := by
          have := tryMatch_length htm
          simp only [List.length_cons] at this ht
          omega
        rw [ih r hr]
    | none =>
      cases t with
      | nil => rw [rsub_nil, rsub_nil]
      | cons d t' =>
        rw [rsub_cons_none htm]
        have hlen : t'.length ≤ n := by
          simp only [List.length_cons] at ht; omega
        have hd : tryMatch (p0 :: ps) (s0 :: ss)
            ([d] ++ rsub (p0 :: ps) (s0 :: ss) N t') = none :=
          noNewMatch hs0 hs0 hp0 hSP (Or.inr ⟨rfl, rfl⟩) hOv
            t'.length t' [d] le_rfl (by simpa using htm)
        rw [rsub_cons_none (by simpa using hd), ih t' hlen]

/-- If the pattern matches nowhere in `t`, the substitution is the
identity on `t`. -/
theorem rsub_no_match {P S N : List Char} :
    ∀ t, (∀ v, v <:+ t → tryMatch P S v = none) → rsub P S N t = t := by
  intro t
  induction t with
  | nil => intro _; exact rsub_nil P S N
  | cons d t' ih =>
    intro h
    rw [rsub_cons_none (h (d :: t') (List.suffix_refl _))]
    rw [ih (fun v hv => h v (hv.trans (List.suffix_cons d t')))]

/-- Prefix literal of the pattern `version "[\d\.]+"` (release.py line 190). -/
def verP : Txt := "version \"".toList

/-- Suffix literal of the pattern `version "[\d\.]+"`. -/
def verS : Txt := "\"".toList

/-- Prefix literal of the URL pattern (release.py lines 193-197). -/
def urlP : Txt := "url \"https://github.com/barnuri/win-dock/releases/download/v".toList

/-- Suffix literal of the URL pattern. -/
def urlS : Txt := "/WinDock.zip\"".toList

/-- First `re.sub` of `update_homebrew_formula_version` (line 190):
replace `version "[\d\.]+"` by `version "{new_version}"`. -/
def subVer (nv : Txt) (content : Txt) : Txt := rsub verP verS nv content

/-- Second `re.sub` of `update_homebrew_formula_version` (lines 193-197):
replace the versioned download URL by the one for `new_version`. -/
def subUrl (nv : Txt) (content : Txt) : Txt := rsub urlP urlS nv content

/-- The full text transformation performed by
`update_homebrew_formula_version` on the formula content. -/
def updateFormulaText (nv : Txt) (content : Txt) : Txt :=
  subUrl nv (subVer nv content)

theorem class_ne_of_not_class {c d : Char} (hd : ¬ isClassChar d)
    (hc : isClassChar c) : c ≠ d := fun h => hd (h ▸ hc)

theorem subVer_idem (nv : Txt) (hnv : nv ≠ []) (hc : ∀ c ∈ nv, isClassChar c)
    (t : Txt) : subVer nv (subVer nv t) = subVer nv t :=
  @rsub_idem 'v' ("ersion \"".toList) '"' [] nv
    (by decide) hnv hc (by decide) (by decide) (by decide) t.length t le_rfl

theorem subUrl_idem (nv : Txt) (hnv : nv ≠ []) (hc : ∀ c ∈ nv, isClassChar c)
    (t : Txt) : subUrl nv (subUrl nv t) = subUrl nv t :=
  @rsub_idem 'u'
    ("rl \"https://github.com/barnuri/win-dock/releases/download/v".toList)
    '/' ("WinDock.zip\"".toList) nv
    (by decide) hnv hc (by decide) (by decide) (by decide) t.length t le_rfl

theorem subVer_cons_none {nv : Txt} {d : Char} {cs : Txt}
    (h : tryMatch verP verS (d :: cs) = none) :
    subVer nv (d :: cs) = d :: subVer nv cs := rsub_cons_none h

theorem subVer_cons_some {nv : Txt} {d : Char} {cs r : Txt}
    (h : tryMatch verP verS (d :: cs) = some r) :
    subVer nv (d :: cs) = verP ++ nv ++ verS ++ subVer nv r := rsub_cons_some h

theorem subUrl_cons_none {nv : Txt} {d : Char} {cs : Txt}
    (h : tryMatch urlP urlS (d :: cs) = none) :
    subUrl nv (d :: cs) = d :: subUrl nv cs := rsub_cons_none h

theorem subUrl_cons_some {nv : Txt} {d : Char} {cs r : Txt}
    (h : tryMatch urlP urlS (d :: cs) = some r) :
    subUrl nv (d :: cs) = urlP ++ nv ++ urlS ++ subUrl nv r := rsub_cons_some h

theorem subVer_nil (nv : Txt) : subVer nv [] = [] := rsub_nil _ _ _

theorem subUrl_nil (nv : Txt) : subUrl nv [] = [] := rsub_nil _ _ _

theorem subVer_walk {nv w : Txt} (hw : ∀ c ∈ w, c ≠ 'v') (X : Txt) :
    subVer nv (w ++ X) = w ++ subVer nv X :=
  @rsub_walk 'v' ("ersion \"".toList) verS nv _ hw X

theorem subUrl_walk {nv w : Txt} (hw : ∀ c ∈ w, c ≠ 'u') (X : Txt) :
    subUrl nv (w ++ X) = w ++ subUrl nv X :=
  @rsub_walk 'u' ("rl \"https://github.com/barnuri/win-dock/releases/download/v".toList)
    urlS nv _ hw X

theorem subVer_repl (nv : Txt) (hnv : nv ≠ []) (hc : ∀ c ∈ nv, isClassChar c)
    (X : Txt) :
    subVer nv (verP ++ (nv ++ (verS ++ X))) =
      verP ++ (nv ++ (verS ++ subVer nv X)) := by
  have h := @rsub_repl verP '"' ([] : Txt) nv
    (by decide) (by decide) hnv hc X
  simp only [List.append_assoc] at h
  exact h

theorem subUrl_repl (nv : Txt) (hnv : nv ≠ []) (hc : ∀ c ∈ nv, isClassChar c)
    (X : Txt) :
    subUrl nv (urlP ++ (nv ++ (urlS ++ X))) =
      urlP ++ (nv ++ (urlS ++ subUrl nv X)) := by
  have h := @rsub_repl urlP '/' ("WinDock.zip\"".toList)
    nv (by decide) (by decide) hnv hc X
  simp only [List.append_assoc] at h
  exact h

/-- At the final `v` of the URL prefix literal followed by a class
character, the version pattern cannot match (its second letter `e` is not
a class character). -/
theorem tryMatch_verP_class_head {m0 : Char} (hm0 : isClassChar m0) (z : Txt) :
    tryMatch verP verS ('v' :: m0 :: z) = none := by
  have he : ('e' : Char) ≠ m0 :=
    Ne.symm (class_ne_of_not_class (by decide) hm0)
  have h1 : stripPre verP ('v' :: m0 :: z) = none := by
    show stripPre ('v' :: 'e' :: "rsion \"".toList) ('v' :: m0 :: z) = none
    show (if ('v' : Char) = 'v' then
        stripPre ('e' :: "rsion \"".toList) (m0 :: z) else none) = none
    rw [if_pos rfl]
    show (if ('e' : Char) = m0 then stripPre "rsion \"".toList z else none) = none
    rw [if_neg he]
  unfold tryMatch
  rw [h1]

/-- The version substitution walks through a URL match (or the URL
replacement) without matching and continues behind it. -/
theorem subVer_walk_urlRepl (nv : Txt) {m0 : Char} {ms : Txt}
    (hMc : ∀ c ∈ m0 :: ms, isClassChar c) (X : Txt) :
    subVer nv (urlP ++ ((m0 :: ms) ++ (urlS ++ X))) =
      urlP ++ ((m0 :: ms) ++ (urlS ++ subVer nv X)) := by
  have hm0 : isClassChar m0 := hMc m0 (by simp)
  have hw1 : ∀ c ∈ "url \"https://github.com/barnuri/win-dock/releases/download/".toList,
      c ≠ 'v' := by decide
  have hurlP : urlP =
      "url \"https://github.com/barnuri/win-dock/releases/download/".toList ++ ['v'] := by
    decide
  have hw2 : ∀ c ∈ (m0 :: ms) ++ urlS, c ≠ 'v' := by
    intro c hc2
    rcases List.mem_append.mp hc2 with h | h
    · exact class_ne_of_not_class (by decide) (hMc c h)
    · exact (by decide : ∀ c ∈ urlS, c ≠ 'v') c h
  have key : ∀ Y : Txt, subVer nv ('v' :: (((m0 :: ms) ++ urlS) ++ Y)) =
      'v' :: (((m0 :: ms) ++ urlS) ++ subVer nv Y) := by
    intro Y
    have hcons : 'v' :: (((m0 :: ms) ++ urlS) ++ Y) =
        'v' :: m0 :: ((ms ++ urlS) ++ Y) := by simp
    rw [hcons, subVer_cons_none (tryMatch_verP_class_head hm0 _)]
    have : (m0 :: ((ms ++ urlS) ++ Y)) = ((m0 :: ms) ++ urlS) ++ Y := by simp
    rw [this, subVer_walk hw2 Y]
  calc subVer nv (urlP ++ ((m0 :: ms) ++ (urlS ++ X)))
      = subVer nv
          ("url \"https://github.com/barnuri/win-dock/releases/download/".toList ++
            (('v' :: (((m0 :: ms) ++ urlS) ++ X)))) := by
        rw [hurlP]; simp
    _ = "url \"https://github.com/barnuri/win-dock/releases/download/".toList ++
          subVer nv ('v' :: (((m0 :: ms) ++ urlS) ++ X)) := subVer_walk hw1 _
    _ = "url \"https://github.com/barnuri/win-dock/releases/download/".toList ++
          ('v' :: (((m0 :: ms) ++ urlS) ++ subVer nv X)) := by rw [key X]
    _ = urlP ++ ((m0 :: ms) ++ (urlS ++ subVer nv X)) := by rw [hurlP]; simp

/-- Key lemma: on text fixed by the version substitution, a URL pass
followed by another version pass followed by another URL pass is just one
URL pass. -/
theorem subUrl_subVer_aux (nv : Txt) (hnv : nv ≠ [])
    (hc : ∀ c ∈ nv, isClassChar c) :
    ∀ n y, y.length ≤ n → subVer nv y = y →
      subUrl nv (subVer nv (subUrl nv y)) = subUrl nv y := by
  intro n
  induction n with
  | zero =>
    intro y hy _
    have h0 : y = [] := List.length_eq_zero.mp (Nat.le_zero.mp hy)
    subst h0
    simp [subUrl_nil, subVer_nil]
  | succ n ih =>
    intro y hy hfix
    cases htm : tryMatch urlP urlS y with
    | some r =>
      cases y with
      | nil =>
        rw [show tryMatch urlP urlS [] = none from by decide] at htm
        exact absurd htm (by simp)
      | cons d y' =>
        obtain ⟨M, hMne, hMc2, hdec⟩ :=
          (tryMatch_some_iff (by decide : ¬ isClassChar '/')).mp htm
        cases M with
        | nil => exact absurd rfl hMne
        | cons m0 ms =>
          have hdec' : d :: y' = urlP ++ ((m0 :: ms) ++ (urlS ++ r)) := by
            simpa [List.append_assoc] using hdec
          have h1 : subUrl nv (d :: y') = urlP ++ (nv ++ (urlS ++ subUrl nv r)) := by
            rw [subUrl_cons_some htm]; simp [List.append_assoc]
          have h2 : subVer nv r = r := by
            have hx := hfix
            rw [hdec', subVer_walk_urlRepl nv hMc2 r] at hx
            simpa using hx
          have hrlen : r.length ≤ n := by
            have hlt := tryMatch_length htm
            simp only [List.length_cons] at hlt hy
            omega
          have h4 := ih r hrlen h2
          rw [h1]
          cases nv with
          | nil => exact absurd rfl hnv
          | cons n0 nsv =>
            rw [subVer_walk_urlRepl (n0 :: nsv) hc (subUrl (n0 :: nsv) r)]
            rw [subUrl_repl (n0 :: nsv) hnv hc]
            rw [h4]
    | none =>
      cases y with
      | nil =>
        simp [subUrl_nil, subVer_nil]
      | cons d y' =>
        have h1 : subUrl nv (d :: y') = d :: subUrl nv y' := subUrl_cons_none htm
        cases htv : tryMatch verP verS (d :: y') with
        | some rv =>
          have h2 : subVer nv (d :: y') = verP ++ (nv ++ (verS ++ subVer nv rv)) := by
            rw [subVer_cons_some htv]; simp [List.append_assoc]
          rw [h2] at hfix
          rw [← hfix]
          have hnu : ∀ c ∈ verP ++ (nv ++ verS), c ≠ 'u' := by
            intro c hc2
            rcases List.mem_append.mp hc2 with h | h
            · exact (by decide : ∀ c ∈ verP, c ≠ 'u') c h
            · rcases List.mem_append.mp h with h' | h'
              · exact class_ne_of_not_class (by decide) (hc c h')
              · exact (by decide : ∀ c ∈ verS, c ≠ 'u') c h'
          have hwalkU : ∀ Z : Txt,
              subUrl nv (verP ++ (nv ++ (verS ++ Z))) =
                verP ++ (nv ++ (verS ++ subUrl nv Z)) := by
            intro Z
            have h := @subUrl_walk nv _ hnu Z
            simpa [List.append_assoc] using h
          rw [hwalkU (subVer nv rv), subVer_repl nv hnv hc,
            hwalkU (subVer nv (subUrl nv (subVer nv rv)))]
          have hVw : subVer nv (subVer nv rv) = subVer nv rv :=
            subVer_idem nv hnv hc rv
          have hwlen : (subVer nv rv).length ≤ n := by
            have hl := congrArg List.length hfix
            have hvp : verP.length = 9 := by decide
            have hvs : verS.length = 1 := by decide
            have hnvlen : 0 < nv.length := List.length_pos.mpr hnv
            simp only [List.length_append, List.length_cons, hvp, hvs] at hl
            simp only [List.length_cons] at hy
            omega
          rw [ih (subVer nv rv) hwlen hVw]
        | none =>
          have h2 : subVer nv (d :: y') = d :: subVer nv y' := subVer_cons_none htv
          have h3 : subVer nv y' = y' := by
            rw [h2] at hfix
            simpa using hfix
          rw [h1]
          have h4 : tryMatch verP verS (d :: subUrl nv y') = none :=
            @noNewMatch 'v' ("ersion \"".toList)
              '"' ([] : Txt)
              'u'
              ("rl \"https://github.com/barnuri/win-dock/releases/download/v".toList)
              '/' ("WinDock.zip\"".toList) nv
              (by decide) (by decide) (by decide) (by decide)
              (Or.inl (by decide)) (by decide)
              y'.length y' [d] le_rfl htv
          have h5 : subVer nv (d :: subUrl nv y') = d :: subVer nv (subUrl nv y') :=
            subVer_cons_none h4
          rw [h5]
          have h6 : tryMatch urlP urlS (d :: subUrl nv y') = none :=
            @noNewMatch 'u'
              ("rl \"https://github.com/barnuri/win-dock/releases/download/v".toList)
              '/' ("WinDock.zip\"".toList)
              'u'
              ("rl \"https://github.com/barnuri/win-dock/releases/download/v".toList)
              '/' ("WinDock.zip\"".toList) nv
              (by decide) (by decide) (by decide) (by decide)
              (Or.inr ⟨rfl, rfl⟩) (by decide)
              y'.length y' [d] le_rfl htm
          have h7 : tryMatch urlP urlS (d :: subVer nv (subUrl nv y')) = none :=
            @noNewMatch 'u'
              ("rl \"https://github.com/barnuri/win-dock/releases/download/v".toList)
              '/' ("WinDock.zip\"".toList)
              'v' ("ersion \"".toList)
              '"' ([] : Txt) nv
              (by decide) (by decide) (by decide) (by decide)
              (Or.inl (by decide)) (by decide)
              (subUrl nv y').length (subUrl nv y') [d] le_rfl h6
          have h8 : subUrl nv (d :: subVer nv (subUrl nv y')) =
              d :: subUrl nv (subVer nv (subUrl nv y')) := subUrl_cons_none h7
          rw [h8]
          have hylen : y'.length ≤ n := by
            simp only [List.length_cons] at hy; omega
          rw [ih y' hylen h3]

theorem updateFormulaText_idem (nv : Txt) (hnv : nv ≠ [])
    (hc : ∀ c ∈ nv, isClassChar c) (content : Txt) :
    updateFormulaText nv (updateFormulaText nv content) =
      updateFormulaText nv content := by
  unfold updateFormulaText
  exact subUrl_subVer_aux nv hnv hc (subVer nv content).length
    (subVer nv content) le_rfl (subVer_idem nv hnv hc content)

/-- Sanity check computed through the scanner equations: the version line
is rewritten to the new version. -/
theorem subVer_sample :
    subVer "1.0.1".toList "version \"1.0.0\"".toList =
      "version \"1.0.1\"".toList := by
  have h : tryMatch verP verS "version \"1.0.0\"".toList = some [] := by decide
  have h2 := @subVer_cons_some ("1.0.1".toList) _ _ _ h
  rw [subVer_nil] at h2
  exact h2.trans (by decide)

theorem noMatch_of_tails {P S : List Char} {t : Txt}
    (h : ∀ v ∈ t.tails, tryMatch P S v = none) :
    ∀ v, v <:+ t → tryMatch P S v = none :=
  fun v hv => h v ((List.mem_tails _ _).mpr hv)

/-- Sanity check: text without any pattern occurrence is unchanged. -/
theorem updateFormulaText_frame_sample :
    updateFormulaText "1.0.1".toList "  sha256 :no_check\n".toList =
      "  sha256 :no_check\n".toList := by
  unfold updateFormulaText subVer subUrl
  have h1 : rsub verP verS "1.0.1".toList "  sha256 :no_check\n".toList =
      "  sha256 :no_check\n".toList :=
    rsub_no_match _ (noMatch_of_tails (by decide))
  rw [h1]
  exact rsub_no_match _ (noMatch_of_tails (by decide))

/-- A fragment of `homebrew-tap/Formula/windock.rb` used as concrete input. -/
def sampleFormula : Txt :=
  ("class Windock < Formula\n  version \"1.0.0\"\n  url \"https://github.com/barnuri/win-dock/releases/download/v1.0.0/WinDock.zip\"\n  sha256 :no_check\nend\n").toList

/-- **C8.**  For every formula-document content, the version/URL text
substitution of `update_homebrew_formula_version` is idempotent —
applying it twice yields the same content as applying it once — and
content not matched by the patterns is unchanged: content in which neither
pattern matches anywhere is returned verbatim, and any prefix free of the
pattern-head characters is copied unchanged.  The hypotheses on `nv` hold
for every rendered version string `"{major}.{minor}.{patch}"`. -/
theorem updateFormula_subst_idem (nv content : Txt)
    (hnv : nv ≠ []) (hc : ∀ c ∈ nv, isClassChar c) :
    updateFormulaText nv (updateFormulaText nv content) =
        updateFormulaText nv content ∧
      ((∀ v, v <:+ content → tryMatch verP verS v = none ∧
          tryMatch urlP urlS v = none) →
        updateFormulaText nv content = content) ∧
      (∀ w X, content = w ++ X → (∀ c ∈ w, c ≠ 'v' ∧ c ≠ 'u') →
        updateFormulaText nv content = w ++ updateFormulaText nv X) := by
  refine ⟨updateFormulaText_idem nv hnv hc content, ?_, ?_⟩
  · intro hno
    unfold updateFormulaText subVer subUrl
    have h1 : rsub verP verS nv content = content :=
      rsub_no_match content (fun v hv => (hno v hv).1)
    rw [h1]
    exact rsub_no_match content (fun v hv => (hno v hv).2)
  · intro w X hsplit hw
    subst hsplit
    unfold updateFormulaText
    rw [subVer_walk (fun c hc2 => (hw c hc2).1) X,
      subUrl_walk (fun c hc2 => (hw c hc2).2) (subVer nv X)]

/-- Witness for C8 at the concrete new version `1.0.1` and a concrete
formula text. -/
theorem updateFormula_subst_idem_witness :
    ("1.0.1".toList ≠ [] ∧ ∀ c ∈ "1.0.1".toList, isClassChar c) ∧
      updateFormulaText "1.0.1".toList
          (updateFormulaText "1.0.1".toList sampleFormula) =
        updateFormulaText "1.0.1".toList sampleFormula :=
  ⟨⟨by decide, by decide⟩,
    (updateFormula_subst_idem "1.0.1".toList sampleFormula
      (by decide) (by decide)).1⟩

/-- Fuel-indexed plain-literal substitution: the model of
`re.sub(r"sha256 :no_check", 'sha256 "<digest>"', content)` in
`update_formula_checksum` (line 801); the pattern there is a pure literal
(no regex operators). -/
def replaceLitF (pat repl : Txt) : Nat → Txt → Txt
  | _, [] => []
  | 0, l => l
  | fuel + 1, c :: cs =>
    match stripPre pat (c :: cs) with
    | some r => repl ++ replaceLitF pat repl fuel r
    | none => c :: replaceLitF pat repl fuel cs

/-- Literal substitution with enough fuel to process the whole input. -/
def replaceLit (pat repl l : Txt) : Txt := replaceLitF pat repl l.length l

theorem replaceLitF_fuel {pat repl : Txt} (hpat : pat ≠ []) :
    ∀ f1 f2 l, l.length ≤ f1 → l.length ≤ f2 →
      replaceLitF pat repl f1 l = replaceLitF pat repl f2 l := by
  intro f1
  induction f1 with
  | zero =>
    intro f2 l h1 _
    have : l = [] := List.length_eq_zero.mp (Nat.le_zero.mp h1)
    subst this
    cases f2 <;> rfl
  | succ f ih =>
    intro f2 l h1 h2
    cases l with
    | nil => cases f2 <;> rfl
    | cons c cs =>
      cases f2 with
      | zero => simp at h2
      | succ g =>
        show (match stripPre pat (c :: cs) with
          | some r => repl ++ replaceLitF pat repl f r
          | none => c :: replaceLitF pat repl f cs) =
          (match stripPre pat (c :: cs) with
          | some r => repl ++ replaceLitF pat repl g r
          | none => c :: replaceLitF pat repl g cs)
        cases hsp : stripPre pat (c :: cs) with
        | some r =>
          have hlen : r.length < (c :: cs).length := by
            have := stripPre_eq_some hsp
            have hp : 0 < pat.length := List.length_pos.mpr hpat
            have := congrArg List.length this
            simp [List.length_append] at this
            simp [this]
            omega
          dsimp only
          simp only [List.length_cons] at h1 h2 hlen
          rw [ih g r (by omega) (by omega)]
        | none =>
          dsimp only
          simp only [List.length_cons] at h1 h2
          rw [ih g cs (by omega) (by omega)]

theorem replaceLit_cons_some {pat repl r : Txt} {c : Char} {cs : Txt}
    (hpat : pat ≠ []) (h : stripPre pat (c :: cs) = some r) :
    replaceLit pat repl (c :: cs) = repl ++ replaceLit pat repl r := by
  show (match stripPre pat (c :: cs) with
    | some r => repl ++ replaceLitF pat repl (c :: cs).length.pred r
    | none => c :: replaceLitF pat repl (c :: cs).length.pred cs) = _
  rw [h]
  have hlen : r.length < (c :: cs).length := by
    have h2 := stripPre_eq_some h
    have hp : 0 < pat.length := List.length_pos.mpr hpat
    have h3 := congrArg List.length h2
    simp [List.length_append] at h3
    simp [h3]
    omega
  simp only [List.length_cons, Nat.pred_succ] at hlen ⊢
  rw [replaceLitF_fuel hpat cs.length r.length r (by omega) le_rfl]
  rfl

theorem replaceLit_cons_none {pat repl : Txt} {c : Char} {cs : Txt}
    (h : stripPre pat (c :: cs) = none) :
    replaceLit pat repl (c :: cs) = c :: replaceLit pat repl cs := by
  show (match stripPre pat (c :: cs) with
    | some r => repl ++ replaceLitF pat repl (c :: cs).length.pred r
    | none => c :: replaceLitF pat repl (c :: cs).length.pred cs) = _
  rw [h]
  rfl

theorem stripPre_none_of_not_pre {pat l : Txt} (h : ¬ pat <+: l) :
    stripPre pat l = none := by
  cases hsp : stripPre pat l with
  | none => rfl
  | some r => exact absurd ⟨r, (stripPre_eq_some hsp).symm⟩ h

theorem replaceLit_no_occ {pat repl : Txt} :
    ∀ l, (∀ v, v <:+ l → ¬ (pat <+: v)) → replaceLit pat repl l = l := by
  intro l
  induction l with
  | nil => intro _; rfl
  | cons c cs ih =>
    intro h
    rw [replaceLit_cons_none
      (stripPre_none_of_not_pre (h (c :: cs) (List.suffix_refl _)))]
    rw [ih (fun v hv => h v (hv.trans (List.suffix_cons c cs)))]

/-- If the first occurrence of the literal `pat` is exactly after `a`
(no occurrence starts inside `a`), the substitution keeps `a`, replaces
that occurrence, and continues on `b`. -/
theorem replaceLit_first {pat repl : Txt} (hpat : pat ≠ []) :
    ∀ a b, (∀ v, v <:+ a → v ≠ [] → ¬ (pat <+: (v ++ pat ++ b))) →
      replaceLit pat repl (a ++ pat ++ b) = a ++ repl ++ replaceLit pat repl b := by
  intro a
  induction a with
  | nil =>
    intro b _
    cases hp : pat with
    | nil => exact absurd hp hpat
    | cons p0 ps =>
      have hsp : stripPre pat (pat ++ b) = some b := stripPre_append pat b
      rw [hp] at hsp
      have := @replaceLit_cons_some _ repl _ _ _
        (by simp : (p0 :: ps : Txt) ≠ []) hsp
      simpa [hp] using this
  | cons c a' ih =>
    intro b h
    have hnop : ¬ pat <+: ((c :: a') ++ pat ++ b) :=
      h (c :: a') (List.suffix_refl _) (by simp)
    have hsp : stripPre pat (c :: (a' ++ pat ++ b)) = none := by
      have := stripPre_none_of_not_pre hnop
      simpa using this
    have hstep : replaceLit pat repl (c :: (a' ++ pat ++ b)) =
        c :: replaceLit pat repl (a' ++ pat ++ b) := replaceLit_cons_none hsp
    have hrest := ih b (fun v hv hvne =>
      h v (hv.trans (List.suffix_cons c a')) hvne)
    calc replaceLit pat repl ((c :: a') ++ pat ++ b)
        = c :: replaceLit pat repl (a' ++ pat ++ b) := by simpa using hstep
      _ = c :: (a' ++ repl ++ replaceLit pat repl b) := by rw [hrest]
      _ = (c :: a') ++ repl ++ replaceLit pat repl b := by simp

/-- The sentinel literal of `update_formula_checksum` (line 801). -/
def shaSentinel : Txt := "sha256 :no_check".toList

/-- External outcomes of `update_formula_checksum`: the `curl` download
exit status, the `shasum` exit status, and the digest printed by `shasum`
(its first whitespace-separated word). -/
structure ChecksumEnv where
  downloadOk : Bool
  shaOk : Bool
  digest : Txt
deriving DecidableEq

/-- Result state of `update_formula_checksum`: the formula file content
and whether the scratch download `/tmp/WinDock.zip` still exists. -/
structure ChecksumResult where
  content : Txt
  scratchExists : Bool
deriving DecidableEq

/-- `ReleaseManager.update_formula_checksum` (lines 773-818): download the
published ZIP to `/tmp/WinDock.zip`; on download failure return with a
warning (scratch file left behind); run `shasum -a 256` (`check=True`, a
failure is caught and only warned about); on success substitute the
literal `sha256 :no_check` by `sha256 "<digest>"` in the formula file and
delete the scratch file. -/
def updateFormulaChecksum (e : ChecksumEnv) (content : Txt) : ChecksumResult :=
  if e.downloadOk = false then
    { content := content, scratchExists := true }
  else if e.shaOk = false then
    { content := content, scratchExists := true }
  else
    { content := replaceLit shaSentinel
        ("sha256 \"".toList ++ e.digest ++ "\"".toList) content,
      scratchExists := false }

/-- **C6 counterexample.**  With download and hashing succeeding, on a
formula whose checksum field already holds a literal digest (not the
sentinel) the computed digest is *not* written: line 801 only replaces the
literal `sha256 :no_check`, so the content is returned unchanged and the
new digest appears nowhere in it — contradicting "for every
formula-document content ... the computed digest is written into the
formula document's checksum field". -/
theorem update_formula_checksum_claim_false :
    (updateFormulaChecksum ⟨true, true, "ab12".toList⟩
        "sha256 \"ff\"\n".toList).content = "sha256 \"ff\"\n".toList ∧
      ¬ ((("sha256 \"".toList ++ "ab12".toList ++ "\"".toList) : Txt) <:+:
        (updateFormulaChecksum ⟨true, true, "ab12".toList⟩
          "sha256 \"ff\"\n".toList).content) := by
  decide

/-- **C6 (amended).**  When the download and the hashing both succeed,
`update_formula_checksum` replaces each occurrence of the literal sentinel
`sha256 :no_check` by `sha256 "<digest>"` and deletes the scratch file; in
particular a checksum field holding the sentinel receives the digest,
while content without the sentinel — e.g. with a pre-existing literal
digest — is left unchanged. -/
theorem update_formula_checksum_ok (e : ChecksumEnv) (content : Txt)
    (hd : e.downloadOk = true) (hs : e.shaOk = true) :
    (updateFormulaChecksum e content).content =
        replaceLit shaSentinel
          ("sha256 \"".toList ++ e.digest ++ "\"".toList) content ∧
      (updateFormulaChecksum e content).scratchExists = false ∧
      (∀ a b, content = a ++ shaSentinel ++ b →
        (∀ v, v <:+ a → v ≠ [] →
          ¬ (shaSentinel <+: (v ++ shaSentinel ++ b))) →
        (updateFormulaChecksum e content).content =
          a ++ ("sha256 \"".toList ++ e.digest ++ "\"".toList) ++
            replaceLit shaSentinel
              ("sha256 \"".toList ++ e.digest ++ "\"".toList) b) ∧
      ((∀ v, v <:+ content → ¬ (shaSentinel <+: v)) →
        (updateFormulaChecksum e content).content = content) := by
  have hu : updateFormulaChecksum e content =
      { content := replaceLit shaSentinel
          ("sha256 \"".toList ++ e.digest ++ "\"".toList) content,
        scratchExists := false } := by
    unfold updateFormulaChecksum
    rw [hd, hs]
    simp
  refine ⟨by rw [hu], by rw [hu], ?_, ?_⟩
  · intro a b hsplit hfirst
    rw [hu]
    dsimp only
    rw [hsplit]
    exact replaceLit_first (by decide) a b hfirst
  · intro hno
    rw [hu]
    dsimp only
    exact replaceLit_no_occ content hno

/-- Witness for the amended C6 at concrete inputs. -/
theorem update_formula_checksum_ok_witness :
    ((⟨true, true, "ab12".toList⟩ : ChecksumEnv).downloadOk = true ∧
        (⟨true, true, "ab12".toList⟩ : ChecksumEnv).shaOk = true) ∧
      (updateFormulaChecksum ⟨true, true, "ab12".toList⟩
        sampleFormula).scratchExists = false :=
  ⟨⟨rfl, rfl⟩, (update_formula_checksum_ok ⟨true, true, "ab12".toList⟩
    sampleFormula rfl rfl).2.1⟩

/-- A parsed semantic version, the triple `calculate_new_version`
manipulates (lines 127-143). -/
structure Version where
  major : Nat
  minor : Nat
  patch : Nat
deriving DecidableEq

/-- The bump kinds the CLI accepts (`choices=["major","minor","patch"]`,
line 891). -/
inductive BumpKind
  | major
  | minor
  | patch
deriving DecidableEq

/-- The component transitions of `calculate_new_version` (lines 133-143). -/
def bumpVersion (v : Version) : BumpKind → Version
  | .major => { major := v.major + 1, minor := 0, patch := 0 }
  | .minor => { major := v.major, minor := v.minor + 1, patch := 0 }
  | .patch => { major := v.major, minor := v.minor, patch := v.patch + 1 }

/-- Decimal digits of a natural number. -/
def natChars (n : Nat) : Txt := Nat.toDigits 10 n

/-- `f"{major}.{minor}.{patch}"` (line 144). -/
def versionTxt (v : Version) : Txt :=
  natChars v.major ++ '.' :: natChars v.minor ++ '.' :: natChars v.patch

/-- `version.split(".")` (line 128). -/
def splitDots : Txt → List Txt
  | [] => [[]]
  | c :: cs =>
    match splitDots cs with
    | [] => [[]]
    | g :: gs => if c = '.' then [] :: g :: gs else (c :: g) :: gs

/-- `int(part)` on the canonical non-negative numerals rendered into the
version file (Python `int` also accepts signs and surrounding whitespace,
which a rendered version never contains). -/
def parseNat (l : Txt) : Option Nat :=
  if l = [] then none
  else if l.all (fun c => c.isDigit) then
    some (l.foldl (fun acc c => acc * 10 + (c.toNat - '0'.toNat)) 0)
  else none

/-- Lines 127-131 of `calculate_new_version`: split on dots, parse the
major component, default a missing minor/patch to 0 (extra components
beyond the third are ignored); a malformed component raises, wrapped into
a `RuntimeError`. -/
def parseVersion (s : Txt) : Option Version :=
  match splitDots s with
  | [] => none
  | p0 :: rest =>
    match parseNat p0 with
    | none => none
    | some major =>
      match rest with
      | [] => some { major := major, minor := 0, patch := 0 }
      | p1 :: rest2 =>
        match parseNat p1 with
        | none => none
        | some minor =>
          match rest2 with
          | [] => some { major := major, minor := minor, patch := 0 }
          | p2 :: _ =>
            match parseNat p2 with
            | none => none
            | some patch =>
              some { major := major, minor := minor, patch := patch }

/-- `calculate_new_version` (lines 124-148) as a function from the stored
current-version string to the pair (new version string, tag name). -/
def calculateNewVersion (cur : Txt) (k : BumpKind) : Option (Txt × Txt) :=
  match parseVersion cur with
  | none => none
  | some v =>
    some (versionTxt (bumpVersion v k), 'v' :: versionTxt (bumpVersion v k))

/-- Strict semantic-version order. -/
def semverLt (a b : Version) : Prop :=
  a.major < b.major ∨ (a.major = b.major ∧
    (a.minor < b.minor ∨ (a.minor = b.minor ∧ a.patch < b.patch)))

/-- **C1.**  For every valid starting version (triple of non-negative
integers, i.e. any parsed version) and every bump kind,
`calculate_new_version` performs exactly the transitions
major→(major+1,0,0), minor→(major,minor+1,0), patch→(major,minor,patch+1),
the result is strictly greater in semantic-version order, and the tag is
`"v"` prepended to the new version string. -/
theorem calculate_new_version_correct (cur : Txt) (v : Version)
    (k : BumpKind) (hparse : parseVersion cur = some v) :
    calculateNewVersion cur k =
        some (versionTxt (bumpVersion v k), 'v' :: versionTxt (bumpVersion v k)) ∧
      bumpVersion v .major = { major := v.major + 1, minor := 0, patch := 0 } ∧
      bumpVersion v .minor = { major := v.major, minor := v.minor + 1, patch := 0 } ∧
      bumpVersion v .patch = { major := v.major, minor := v.minor, patch := v.patch + 1 } ∧
      semverLt v (bumpVersion v k) := by
  refine ⟨?_, rfl, rfl, rfl, ?_⟩
  · unfold calculateNewVersion
    rw [hparse]
  · cases k with
    | major => exact Or.inl (Nat.lt_succ_self _)
    | minor => exact Or.inr ⟨rfl, Or.inl (Nat.lt_succ_self _)⟩
    | patch => exact Or.inr ⟨rfl, Or.inr ⟨rfl, Nat.lt_succ_self _⟩⟩

/-- Witness for C1: bumping `1.2.3` by `patch` gives `1.2.4`, tag `v1.2.4`. -/
theorem calculate_new_version_correct_witness :
    parseVersion "1.2.3".toList = some { major := 1, minor := 2, patch := 3 } ∧
      calculateNewVersion "1.2.3".toList BumpKind.patch =
        some ("1.2.4".toList, "v1.2.4".toList) ∧
      semverLt { major := 1, minor := 2, patch := 3 }
        (bumpVersion { major := 1, minor := 2, patch := 3 } BumpKind.patch) := by
  refine ⟨by decide, ?_, ?_⟩
  · have h := (calculate_new_version_correct "1.2.3".toList
      { major := 1, minor := 2, patch := 3 } BumpKind.patch (by decide)).1
    rw [h]
    decide
  · exact (calculate_new_version_correct "1.2.3".toList
      { major := 1, minor := 2, patch := 3 } BumpKind.patch (by decide)).2.2.2.2

/-- The observable console lines the claims refer to (`print` calls). -/
inductive Ev
  | dryRunNote        -- a "🔍 [DRY RUN] Would ..." line
  | warnCommitFailed  -- line 389
  | warnPushFailed    -- line 384
  | warnTagFailed     -- line 440
  | warnTagPushFailed -- line 435
  | notesFallback     -- line 509
  | stepRelease       -- line 513
  | skipRelease       -- line 537
  | warnReleaseFailed -- line 640
  | stepSubmit        -- line 646
  | warnSubmitFailed  -- line 767
  | successBanner     -- line 70
deriving DecidableEq

/-- The mutable state the script touches: the two version fields of
`Info.plist` (and their committed values, which `git restore` brings
back), the local formula file, the artifact files, the release-notes
file, the linear git history (summaries newest first, head = `HEAD`)
with the index of the most recent tag reachable from `HEAD^`, the tag
list, the hosted release record, the process working directory (an
abstract identifier), the tap repository and the checksum scratch file. -/
structure World where
  plistReadable : Bool
  plistShort : Option Txt
  plistBuild : Option Txt
  headShort : Option Txt
  headBuild : Option Txt
  formula : Option Txt
  dmgExists : Bool
  zipExists : Bool
  appExists : Bool
  notesFile : Option Txt
  history : List Txt
  prevTag : Option Nat
  tags : List Txt
  releaseRecord : Bool
  cwd : Nat
  tapFormula : Option Txt
  tapCommits : List Txt
  tapPushed : Bool
  tmpZip : Bool
  events : List Ev
deriving DecidableEq

/-- The points of `submit_to_homebrew` at which a Python exception can
arise (at most one per run in the model). -/
inductive SubFail
  | resetOps      -- lines 665-668 (after original_dir is set at 661)
  | rmtreeOp      -- line 675 (before any original_dir assignment)
  | cloneRaise    -- line 681 raising other than CalledProcessError
  | mkdirTap      -- line 688 (before original_dir is set at 691)
  | initOps       -- lines 695-719 (after chdir at 692)
  | mkdirFormula  -- line 730 (after original_dir is set at 725)
  | gitOps        -- lines 747-761
  | pushOp        -- line 764
deriving DecidableEq

/-- Outcomes of every external call the script makes. -/
structure Env where
  staleUnlinkOk : Bool   -- the unlink calls of cleanup_stale_resources
  buildExitOk : Bool     -- build.sh exit status zero
  buildMakesApp : Bool   -- build.sh leaves WinDock.app at the release path
  commitOk : Bool        -- git add + git commit (check=True) succeed
  pushOk : Bool          -- git push exit status zero
  tagCreateOk : Bool     -- git tag (check=True) succeeds
  tagPushOk : Bool       -- git push origin <tag> exit status zero
  logFails : Bool        -- the git log subprocess (check=True) raises
  today : Txt            -- datetime.now().strftime("%Y-%m-%d")
  hasPyGithub : Bool     -- importlib finds the github module
  hasGhCli : Bool        -- `gh --version` succeeds
  ghReleaseExists : Bool -- `gh release view <tag>` exit status zero
  ghOpsOk : Bool         -- the checked gh release create/edit calls succeed
  zipOk : Bool           -- shutil.make_archive succeeds
  tapRepo : Bool         -- homebrew-windock-temp exists and has .git
  tapDir : Bool          -- homebrew-windock-temp exists (as a plain dir)
  cloneCPE : Bool        -- git clone exits non-zero (CalledProcessError)
  subFailAt : Option SubFail
  newFormula : Bool      -- git status --porcelain output starts with "A"
  checksum : ChecksumEnv
  restoreOk : Bool       -- git restore (check=True) in main succeeds
deriving DecidableEq

/-- The `self.*` attributes of `ReleaseManager` the run sets along the
way (`None` models a not-yet-assigned Python attribute). -/
structure RMState where
  currentVersion : Option Txt
  newVersion : Option Txt
  tagNameF : Option Txt
  releaseNotes : Option Txt
  dryRun : Bool
deriving DecidableEq

/-- The fatal exceptions of the run (all `RuntimeError` except the
`UnboundLocalError` that can escape `submit_to_homebrew`'s `finally`). -/
inductive RErr
  | plistReadError   -- get_current_version, line 122
  | versionCalcError -- calculate_new_version, line 148
  | plistWriteError  -- update_version_in_plist, line 174
  | buildError       -- build_app, lines 223/237/239
  | nameError        -- submit_to_homebrew, line 771 (original_dir unbound)
deriving DecidableEq

def logEv (w : World) (e : Ev) : World := { w with events := e :: w.events }

/-- `cleanup_stale_resources` (lines 73-106): best-effort deletion of any
stale `WinDock.dmg` / `WinDock.zip` (failure is only warned about); the
volume unmounting touches no modelled state.  It runs in dry-run too. -/
def cleanupStaleResources (env : Env) (w : World) : World :=
  if env.staleUnlinkOk then { w with dmgExists := false, zipExists := false }
  else w

/-- `get_current_version` (lines 108-122): read the plist; a missing
`CFBundleShortVersionString` defaults to `1.0.0`; an unreadable file
raises `RuntimeError`. -/
def getCurrentVersion (s : RMState) (w : World) :
    Except (RErr × World) (RMState × World) :=
  if w.plistReadable = false then .error (.plistReadError, w)
  else
    match w.plistShort with
    | some v => .ok ({ s with currentVersion := some v }, w)
    | none => .ok ({ s with currentVersion := some "1.0.0".toList }, w)

/-- `calculate_new_version` (lines 124-148) as a pipeline step. -/
def calculateNewVersionStep (k : BumpKind) (s : RMState) (w : World) :
    Except (RErr × World) (RMState × World) :=
  match calculateNewVersion (s.currentVersion.getD []) k with
  | none => .error (.versionCalcError, w)
  | some (nv, tg) =>
    .ok ({ s with newVersion := some nv, tagNameF := some tg }, w)

/-- `update_homebrew_formula_version` (lines 176-206): skip with a warning
when the formula file is missing, otherwise apply the two `re.sub`
passes; file errors are caught and warned about. -/
def updateHomebrewFormulaVersion (s : RMState) (w : World) : World :=
  match w.formula with
  | none => w
  | some content =>
    { w with formula := some (updateFormulaText (s.newVersion.getD []) content) }

/-- `update_version_in_plist` (lines 150-174): guarded by dry-run; writes
both version fields and then updates the formula file. -/
def updateVersionInPlist (s : RMState) (w : World) :
    Except (RErr × World) (RMState × World) :=
  if s.dryRun then .ok (s, logEv w .dryRunNote)
  else if w.plistReadable = false then .error (.plistWriteError, w)
  else
    let w1 := { w with plistShort := some (s.newVersion.getD []),
                       plistBuild := some (s.newVersion.getD []) }
    .ok (s, updateHomebrewFormulaVersion s w1)

/-- `build_app` (lines 208-239): runs `build.sh` unconditionally (there
is no dry-run guard), then raises `RuntimeError` if the script exited
non-zero (`check=True`) or — after a zero exit — if `WinDock.app` does
not exist at the release path. -/
def buildApp (env : Env) (s : RMState) (w : World) :
    Except (RErr × World) (RMState × World) :=
  let w1 := { w with appExists := env.buildMakesApp }
  if env.buildExitOk = false then .error (.buildError, w1)
  else if w1.appExists = false then .error (.buildError, w1)
  else .ok (s, w1)

/-- `_git_commit_via_subprocess` (lines 370-390): add/commit failures are
caught with a warning; a push failure prints a warning and the run
continues.  A successful commit prepends to the history (shifting the
previous-tag index) and makes the working-tree plist the committed one. -/
def gitCommitViaSubprocess (env : Env) (s : RMState) (w : World) : World :=
  if env.commitOk then
    let w1 := { w with
      history := ("Bump version to ".toList ++ s.newVersion.getD []) :: w.history,
      prevTag := w.prevTag.map (· + 1),
      headShort := w.plistShort, headBuild := w.plistBuild }
    if env.pushOk then w1 else logEv w1 .warnPushFailed
  else logEv w .warnCommitFailed

/-- `commit_version_bump` (lines 323-368), raw-git backend
(`HAVE_GITPYTHON = False`; spec §4.4 takes the backends as observably
identical). -/
def commitVersionBump (env : Env) (s : RMState) (w : World) : World :=
  if s.dryRun then logEv w .dryRunNote
  else gitCommitViaSubprocess env s w

/-- `_git_tag_via_subprocess` (lines 427-441). -/
def gitTagViaSubprocess (env : Env) (s : RMState) (w : World) : World :=
  if env.tagCreateOk then
    let w1 := { w with tags := s.tagNameF.getD [] :: w.tags }
    if env.tagPushOk then w1 else logEv w1 .warnTagPushFailed
  else logEv w .warnTagFailed

/-- `create_tag` (lines 392-425), raw-git backend. -/
def createTag (env : Env) (s : RMState) (w : World) : World :=
  if s.dryRun then logEv w .dryRunNote
  else gitTagViaSubprocess env s w

/-- The `## What's Changed` header of the release notes (line 488). -/
def whatsChangedHeader : Txt := "## What's Changed\n\n".toList

/-- The fixed installation-instructions section of the release notes
(lines 490-498), including the blank line separating it from the commit
list. -/
def installSection : Txt :=
  ("\n\n## Installation\n\n1. Download `WinDock.dmg`\n2. Open the DMG file\n3. Drag `WinDock.app` to the Applications folder\n4. Run the app from Applications\n").toList

/-- `"\n".join(f"- {summary}" for ...)` (lines 481-485). -/
def commitLines (commits : List Txt) : Txt :=
  List.intercalate "\n".toList (commits.map (fun c => "- ".toList ++ c))

/-- The summaries reported by `git log {tag}..HEAD^` on a linear history
(newest first) whose most recent tag reachable from `HEAD^` sits at
index `k`: everything strictly between `HEAD` (excluded) and the tagged
commit (excluded). -/
def logRange (history : List Txt) (k : Nat) : List Txt :=
  (history.take k).drop 1

/-- The fallback notes of the `except` handler (line 508):
`## WinDock {version}\n\nReleased on {date}` — with no installation
section. -/
def fallbackNotes (nv today : Txt) : Txt :=
  "## WinDock ".toList ++ nv ++ "\n\nReleased on ".toList ++ today

/-- `generate_release_notes` (lines 443-509), raw-git branch:
`git describe --tags --abbrev=0 HEAD^` finds the previous tag (success is
equivalent to such a tag existing), `git log` collects the summaries
(`check=True`: a non-zero exit raises `CalledProcessError`, which the
`except` clause turns into the fallback notes without writing the notes
file), and on success the notes file is written.  The function never
raises: this is modelled by its total, `Except`-free type. -/
def generateReleaseNotes (env : Env) (s : RMState) (w : World) :
    RMState × World :=
  if env.logFails then
    ({ s with releaseNotes := some (fallbackNotes (s.newVersion.getD []) env.today) },
      logEv w .notesFallback)
  else
    let commits :=
      match w.prevTag with
      | some k => logRange w.history k
      | none => w.history
    let notes := whatsChangedHeader ++ commitLines commits ++ installSection
    ({ s with releaseNotes := some notes }, { w with notesFile := some notes })

/-- `create_github_release` (lines 511-642): dry-run guard; when neither
the GitHub CLI nor PyGithub is available, return before the ZIP packaging
(lines 536-540); otherwise build the ZIP (when the app bundle exists) and
— only with the CLI — create or update the release (`CalledProcessError`
is caught with a warning; with PyGithub alone nothing is attempted,
line 642). -/
def createGithubRelease (env : Env) (s : RMState) (w : World) : World :=
  let w0 := logEv w .stepRelease
  if s.dryRun then logEv w0 .dryRunNote
  else if (env.hasGhCli || env.hasPyGithub) = false then logEv w0 .skipRelease
  else
    let w1 := if w0.appExists then
        (if env.zipOk then { w0 with zipExists := true } else w0)
      else w0
    if env.hasGhCli then
      if env.ghOpsOk then { w1 with releaseRecord := true }
      else logEv w1 .warnReleaseFailed
    else w1

/-- The part of `submit_to_homebrew` from line 724 on: `original_dir`
is (re)assigned to the current directory (line 725), the process moves
into the tap directory (line 726), the formula is copied in, its checksum
updated, committed and pushed; every failure is caught at line 766 and the
`finally` block restores the working directory using the `original_dir`
just assigned. -/
def submitAfterSetup (env : Env) (s : RMState) (w : World) : World × Bool :=
  let orig := w.cwd
  let w1 := { w with cwd := orig + 1 }
  if env.subFailAt = some SubFail.mkdirFormula then
    (logEv { w1 with cwd := orig } .warnSubmitFailed, false)
  else
    match w1.formula with
    | none =>
      (logEv { w1 with cwd := orig } .warnSubmitFailed, false)
    | some content =>
      let cres := updateFormulaChecksum env.checksum content
      let w2 := { w1 with tapFormula := some cres.content,
                          tmpZip := cres.scratchExists }
      if env.subFailAt = some SubFail.gitOps then
        (logEv { w2 with cwd := orig } .warnSubmitFailed, false)
      else
        let msg := if env.newFormula then
            "windock ".toList ++ s.newVersion.getD [] ++ " (new formula)".toList
          else "windock ".toList ++ s.newVersion.getD []
        let w3 := { w2 with tapCommits := msg :: w2.tapCommits }
        if env.subFailAt = some SubFail.pushOp then
          (logEv { w3 with cwd := orig } .warnSubmitFailed, false)
        else
          ({ w3 with tapPushed := true, cwd := orig }, false)

/-- `submit_to_homebrew` (lines 644-771).  Returns the final world and
whether an exception escaped the function: the `finally` block runs
`os.chdir(original_dir)`, and when the exception occurred before any of
the assignments to `original_dir` (lines 661, 691, 725) that name is
unbound, so the `finally` itself raises `UnboundLocalError`; on exactly
those paths the working directory had never been changed. -/
def submitToHomebrew (env : Env) (s : RMState) (w : World) : World × Bool :=
  let w0 := logEv w .stepSubmit
  if s.dryRun then (logEv w0 .dryRunNote, false)
  else if env.tapRepo then
    if env.subFailAt = some SubFail.resetOps then
      (logEv w0 .warnSubmitFailed, false)
    else submitAfterSetup env s w0
  else if env.tapDir ∧ env.subFailAt = some SubFail.rmtreeOp then
    (logEv w0 .warnSubmitFailed, true)
  else if env.subFailAt = some SubFail.cloneRaise then
    (logEv w0 .warnSubmitFailed, true)
  else if env.cloneCPE then
    if env.subFailAt = some SubFail.mkdirTap then
      (logEv w0 .warnSubmitFailed, true)
    else if env.subFailAt = some SubFail.initOps then
      (logEv w0 .warnSubmitFailed, false)
    else submitAfterSetup env s w0
  else submitAfterSetup env s w0

/-- `cleanup` (lines 867-881): only `release_notes.md` is removed; the
DMG and ZIP are kept. -/
def cleanupStep (w : World) : World := { w with notesFile := none }

/-- `ReleaseManager.run` (lines 49-71): the whole ordered pipeline. -/
def runPipeline (env : Env) (dry : Bool) (k : BumpKind) (w : World) :
    Except (RErr × World) (RMState × World) :=
  let s0 : RMState := { currentVersion := none, newVersion := none,
                        tagNameF := none, releaseNotes := none, dryRun := dry }
  let w0 := cleanupStaleResources env w
  match getCurrentVersion s0 w0 with
  | .error e => .error e
  | .ok (s1, w1) =>
    match calculateNewVersionStep k s1 w1 with
    | .error e => .error e
    | .ok (s2, w2) =>
      match updateVersionInPlist s2 w2 with
      | .error e => .error e
      | .ok (s3, w3) =>
        match buildApp env s3 w3 with
        | .error e => .error e
        | .ok (s4, w4) =>
          let w5 := commitVersionBump env s4 w4
          let w6 := createTag env s4 w5
          let sw := generateReleaseNotes env s4 w6
          let w8 := createGithubRelease env sw.1 sw.2
          let sub := submitToHomebrew env sw.1 w8
          if sub.2 then .error (.nameError, sub.1)
          else .ok (sw.1, logEv (cleanupStep sub.1) .successBanner)

/-- Result of the `main` entry point (lines 884-912). -/
structure MainResult where
  world : World
  printedError : Bool
  restoreAttempted : Bool
  exitedZero : Bool
deriving DecidableEq

/-- `main` (lines 884-912): on success prints the release URL and returns
(exit status 0); on any exception prints the error and runs
`git restore <Info.plist>` with `check=True` — the restore call is not
guarded, so if it fails its `CalledProcessError` is unhandled and the
interpreter exits non-zero; if it succeeds, `main` returns normally
(exit status 0) with the plist fields reverted to their committed
values. -/
def mainModel (env : Env) (dry : Bool) (k : BumpKind) (w : World) :
    MainResult :=
  match runPipeline env dry k w with
  | .ok (_, w') =>
    { world := w', printedError := false, restoreAttempted := false,
      exitedZero := true }
  | .error (_, w') =>
    if env.restoreOk then
      { world := { w' with plistShort := w'.headShort,
                           plistBuild := w'.headBuild },
        printedError := true, restoreAttempted := true, exitedZero := true }
    else
      { world := w', printedError := true, restoreAttempted := true,
        exitedZero := false }

/-- **C7.**  On every exit path of `submit_to_homebrew` — dry-run return,
normal completion, the early return for a missing formula file, every
caught failure, and the paths on which the `finally` block itself raises
`UnboundLocalError` — the process's current working directory ends equal
to the directory that was current when the step began. -/
theorem submitAfterSetup_cwd (env : Env) (s : RMState) (w : World) :
    (submitAfterSetup env s w).1.cwd = w.cwd := by
  simp only [submitAfterSetup, logEv]
  repeat' split
  all_goals simp

theorem submit_to_homebrew_restores_cwd (env : Env) (s : RMState)
    (w : World) : (submitToHomebrew env s w).1.cwd = w.cwd := by
  unfold submitToHomebrew
  have h1 : ∀ e, (logEv w e).cwd = w.cwd := fun _ => rfl
  have h2 : ∀ e e', (logEv (logEv w e') e).cwd = w.cwd := fun _ _ => rfl
  split
  · exact h2 _ _
  · split
    · split
      · exact h2 _ _
      · exact (submitAfterSetup_cwd env s _).trans (h1 _)
    · split
      · exact h2 _ _
      · split
        · exact h2 _ _
        · split
          · split
            · exact h2 _ _
            · split
              · exact h2 _ _
              · exact (submitAfterSetup_cwd env s _).trans (h1 _)
          · exact (submitAfterSetup_cwd env s _).trans (h1 _)

/-- **C3.**  `build_app` fails with a `BuildError` exactly when the build
script exits non-zero or when, after a zero exit, `WinDock.app` is
missing; and in that case the run aborts with that error before any git
commit, tag, release-creation or formula step has executed: history,
tags, release record, tap commits, tap push flag and notes file are
untouched. -/
theorem build_failure_aborts (env : Env) (dry : Bool) (k : BumpKind)
    (w : World) (ver : Version)
    (hready : w.plistReadable = true)
    (hv : parseVersion (w.plistShort.getD "1.0.0".toList) = some ver)
    (hfail : env.buildExitOk = false ∨ env.buildMakesApp = false) :
    (∀ s w2, (∃ w', buildApp env s w2 = .error (.buildError, w')) ↔
      (env.buildExitOk = false ∨ env.buildMakesApp = false)) ∧
    (match runPipeline env dry k w with
      | .error (e, w') => e = RErr.buildError ∧ w'.history = w.history ∧
          w'.tags = w.tags ∧ w'.releaseRecord = w.releaseRecord ∧
          w'.tapCommits = w.tapCommits ∧ w'.tapPushed = w.tapPushed ∧
          w'.notesFile = w.notesFile
      | .ok _ => False) := by
  constructor
  · intro s w2
    constructor
    · rintro ⟨w', hw'⟩
      by_contra hcon
      push_neg at hcon
      simp [buildApp, hcon.1, hcon.2] at hw'
    · intro h
      by_cases hexit : env.buildExitOk = false
      · exact ⟨{ w2 with appExists := env.buildMakesApp },
          by simp [buildApp, hexit]⟩
      · have hex2 : env.buildExitOk = true := by
          cases henv : env.buildExitOk
          · exact absurd henv hexit
          · rfl
        have hm : env.buildMakesApp = false := by
          rcases h with h | h
          · exact absurd h hexit
          · exact h
        exact ⟨{ w2 with appExists := env.buildMakesApp },
          by simp [buildApp, hex2, hm]⟩
  · cases hps : w.plistShort with
    | none =>
      rw [hps] at hv
      simp only [Option.getD_none] at hv
      rcases hfail with hf | hf <;>
        cases hsu : env.staleUnlinkOk <;> cases dry <;>
        cases hfor : w.formula <;>
        by_cases hex : env.buildExitOk = false <;>
        simp_all [runPipeline, cleanupStaleResources, getCurrentVersion,
          calculateNewVersionStep, calculateNewVersion, updateVersionInPlist,
          updateHomebrewFormulaVersion, buildApp, logEv]
    | some cv =>
      rw [hps] at hv
      simp only [Option.getD_some] at hv
      rcases hfail with hf | hf <;>
        cases hsu : env.staleUnlinkOk <;> cases dry <;>
        cases hfor : w.formula <;>
        by_cases hex : env.buildExitOk = false <;>
        simp_all [runPipeline, cleanupStaleResources, getCurrentVersion,
          calculateNewVersionStep, calculateNewVersion, updateVersionInPlist,
          updateHomebrewFormulaVersion, buildApp, logEv]

/-- A concrete environment in which every external call succeeds. -/
def baseEnv : Env :=
  { staleUnlinkOk := true, buildExitOk := true, buildMakesApp := true,
    commitOk := true, pushOk := true, tagCreateOk := true, tagPushOk := true,
    logFails := false, today := "2025-01-01".toList,
    hasPyGithub := false, hasGhCli := true, ghReleaseExists := false,
    ghOpsOk := true, zipOk := true, tapRepo := true, tapDir := true,
    cloneCPE := false, subFailAt := none, newFormula := false,
    checksum := { downloadOk := true, shaOk := true, digest := "ab".toList },
    restoreOk := true }

/-- A concrete starting world (version `1.0.0`, no local formula file, one
commit, no tags). -/
def baseWorld : World :=
  { plistReadable := true, plistShort := some ("1.0.0".toList),
    plistBuild := some ("1.0.0".toList), headShort := some ("1.0.0".toList),
    headBuild := some ("1.0.0".toList), formula := none,
    dmgExists := false, zipExists := false, appExists := false,
    notesFile := none, history := ["first commit".toList], prevTag := none,
    tags := [], releaseRecord := false, cwd := 0, tapFormula := none,
    tapCommits := [], tapPushed := false, tmpZip := false, events := [] }

/-- Witness for C3: the build script reports success but leaves no
`WinDock.app`; the run aborts with `BuildError` and no git/tag/release/
formula state changed. -/
theorem build_failure_aborts_witness :
    (∀ s w2, (∃ w', buildApp { baseEnv with buildMakesApp := false } s w2 =
        .error (.buildError, w')) ↔
      (({ baseEnv with buildMakesApp := false } : Env).buildExitOk = false ∨
        ({ baseEnv with buildMakesApp := false } : Env).buildMakesApp = false)) ∧
    (match runPipeline { baseEnv with buildMakesApp := false } false
        BumpKind.patch baseWorld with
      | .error (e, w') => e = RErr.buildError ∧
          w'.history = baseWorld.history ∧ w'.tags = baseWorld.tags ∧
          w'.releaseRecord = baseWorld.releaseRecord ∧
          w'.tapCommits = baseWorld.tapCommits ∧
          w'.tapPushed = baseWorld.tapPushed ∧
          w'.notesFile = baseWorld.notesFile
      | .ok _ => False) :=
  build_failure_aborts { baseEnv with buildMakesApp := false } false
    BumpKind.patch baseWorld { major := 1, minor := 0, patch := 0 }
    (by decide) (by decide) (Or.inr (by decide))

/-- **C4.**  If `git push` of the version-bump commit exits non-zero, the
run does not abort: the push failure is only warned about, and tagging,
release-notes generation, release creation and the formula sync all still
execute; the run completes with the success banner. -/
theorem push_failure_nonfatal (env : Env) (k : BumpKind) (w : World)
    (ver : Version)
    (hready : w.plistReadable = true)
    (hv : parseVersion (w.plistShort.getD "1.0.0".toList) = some ver)
    (hbe : env.buildExitOk = true) (hba : env.buildMakesApp = true)
    (hc : env.commitOk = true) (hp : env.pushOk = false)
    (htc : env.tagCreateOk = true) (htp : env.tagPushOk = true)
    (hlog : env.logFails = false)
    (hgh : env.hasGhCli = true) (hops : env.ghOpsOk = true)
    (hz : env.zipOk = true)
    (htap : env.tapRepo = true) (hsf : env.subFailAt = none)
    (hfor : ∃ f, w.formula = some f) :
    (match runPipeline env false k w with
      | .ok (s', w') =>
          Ev.warnPushFailed ∈ w'.events ∧
          (∃ tg, w'.tags = tg :: w.tags) ∧
          s'.releaseNotes.isSome = true ∧
          Ev.stepRelease ∈ w'.events ∧
          w'.releaseRecord = true ∧
          Ev.stepSubmit ∈ w'.events ∧
          w'.tapPushed = true ∧
          Ev.successBanner ∈ w'.events
      | .error _ => False) := by
  obtain ⟨f, hfor⟩ := hfor
  cases hps : w.plistShort with
  | none =>
    rw [hps] at hv
    simp only [Option.getD_none] at hv
    cases hsu : env.staleUnlinkOk <;> cases hpt : w.prevTag <;>
      simp_all [runPipeline, cleanupStaleResources, getCurrentVersion,
        calculateNewVersionStep, calculateNewVersion, updateVersionInPlist,
        updateHomebrewFormulaVersion, buildApp, commitVersionBump,
        gitCommitViaSubprocess, createTag, gitTagViaSubprocess,
        generateReleaseNotes, createGithubRelease, submitToHomebrew,
        submitAfterSetup, cleanupStep, logEv]
  | some cv =>
    rw [hps] at hv
    simp only [Option.getD_some] at hv
    cases hsu : env.staleUnlinkOk <;> cases hpt : w.prevTag <;>
      simp_all [runPipeline, cleanupStaleResources, getCurrentVersion,
        calculateNewVersionStep, calculateNewVersion, updateVersionInPlist,
        updateHomebrewFormulaVersion, buildApp, commitVersionBump,
        gitCommitViaSubprocess, createTag, gitTagViaSubprocess,
        generateReleaseNotes, createGithubRelease, submitToHomebrew,
        submitAfterSetup, cleanupStep, logEv]

/-- A starting world that also has the local Homebrew formula file. -/
def formulaWorld : World := { baseWorld with formula := some sampleFormula }

/-- Witness for C4 at a concrete environment in which only the git push
fails. -/
theorem push_failure_nonfatal_witness :
    (match runPipeline { baseEnv with pushOk := false } false BumpKind.patch
        formulaWorld with
      | .ok (s', w') =>
          Ev.warnPushFailed ∈ w'.events ∧
          (∃ tg, w'.tags = tg :: formulaWorld.tags) ∧
          s'.releaseNotes.isSome = true ∧
          Ev.stepRelease ∈ w'.events ∧
          w'.releaseRecord = true ∧
          Ev.stepSubmit ∈ w'.events ∧
          w'.tapPushed = true ∧
          Ev.successBanner ∈ w'.events
      | .error _ => False) :=
  push_failure_nonfatal { baseEnv with pushOk := false } BumpKind.patch
    formulaWorld { major := 1, minor := 0, patch := 0 }
    rfl (by decide) rfl rfl rfl rfl rfl rfl rfl rfl rfl rfl rfl rfl
    ⟨sampleFormula, rfl⟩

/-- **C10.**  When neither the GitHub CLI nor PyGithub is available,
`create_github_release` returns before the ZIP packaging it contains, so
the step changes neither the ZIP file nor the release record (it only
prints the skip notice); in a run whose build produced the app bundle, no
ZIP asset exists at the end even though the bundle does, and the run
still completes with the success banner. -/
theorem no_gh_no_zip (env : Env) (k : BumpKind) (w : World) (ver : Version)
    (hready : w.plistReadable = true)
    (hv : parseVersion (w.plistShort.getD "1.0.0".toList) = some ver)
    (hsu : env.staleUnlinkOk = true)
    (hbe : env.buildExitOk = true) (hba : env.buildMakesApp = true)
    (hgh : env.hasGhCli = false) (hpy : env.hasPyGithub = false)
    (hc : env.commitOk = true) (hp : env.pushOk = true)
    (htc : env.tagCreateOk = true) (htp : env.tagPushOk = true)
    (hlog : env.logFails = false)
    (htap : env.tapRepo = true) (hsf : env.subFailAt = none)
    (hfor : ∃ f, w.formula = some f) :
    (∀ s w2, s.dryRun = false →
      (createGithubRelease env s w2).zipExists = w2.zipExists ∧
      (createGithubRelease env s w2).releaseRecord = w2.releaseRecord ∧
      Ev.skipRelease ∈ (createGithubRelease env s w2).events) ∧
    (match runPipeline env false k w with
      | .ok (_, w') => w'.zipExists = false ∧ w'.appExists = true ∧
          Ev.skipRelease ∈ w'.events ∧ w'.releaseRecord = w.releaseRecord ∧
          Ev.successBanner ∈ w'.events
      | .error _ => False) := by
  constructor
  · intro s w2 hdry
    simp [createGithubRelease, hgh, hpy, hdry, logEv]
  · obtain ⟨f, hfor⟩ := hfor
    cases hps : w.plistShort with
    | none =>
      rw [hps] at hv
      simp only [Option.getD_none] at hv
      cases hpt : w.prevTag <;>
        simp_all [runPipeline, cleanupStaleResources, getCurrentVersion,
          calculateNewVersionStep, calculateNewVersion, updateVersionInPlist,
          updateHomebrewFormulaVersion, buildApp, commitVersionBump,
          gitCommitViaSubprocess, createTag, gitTagViaSubprocess,
          generateReleaseNotes, createGithubRelease, submitToHomebrew,
          submitAfterSetup, cleanupStep, logEv]
    | some cv =>
      rw [hps] at hv
      simp only [Option.getD_some] at hv
      cases hpt : w.prevTag <;>
        simp_all [runPipeline, cleanupStaleResources, getCurrentVersion,
          calculateNewVersionStep, calculateNewVersion, updateVersionInPlist,
          updateHomebrewFormulaVersion, buildApp, commitVersionBump,
          gitCommitViaSubprocess, createTag, gitTagViaSubprocess,
          generateReleaseNotes, createGithubRelease, submitToHomebrew,
          submitAfterSetup, cleanupStep, logEv]

/-- Witness for C10 at a concrete environment without gh and PyGithub. -/
theorem no_gh_no_zip_witness :
    (match runPipeline { baseEnv with hasGhCli := false } false BumpKind.patch
        formulaWorld with
      | .ok (_, w') => w'.zipExists = false ∧ w'.appExists = true ∧
          Ev.skipRelease ∈ w'.events ∧
          w'.releaseRecord = formulaWorld.releaseRecord ∧
          Ev.successBanner ∈ w'.events
      | .error _ => False) :=
  (no_gh_no_zip { baseEnv with hasGhCli := false } BumpKind.patch
    formulaWorld { major := 1, minor := 0, patch := 0 }
    rfl (by decide) rfl rfl rfl rfl rfl rfl rfl rfl rfl rfl rfl rfl
    ⟨sampleFormula, rfl⟩).2

/-- The state components a dry run must not change under C2: the two
plist version fields, the formula document, the repository state
(history, previous tag, tags, committed plist) and the published state
(release record, tap commits, tap push flag). -/
def keyState (w : World) : Option Txt × Option Txt × Option Txt ×
    List Txt × Option Nat × List Txt × Bool × List Txt × Bool ×
    Option Txt × Option Txt :=
  (w.plistShort, w.plistBuild, w.formula, w.history, w.prevTag, w.tags,
   w.releaseRecord, w.tapCommits, w.tapPushed, w.headShort, w.headBuild)

theorem getCurrentVersion_cases (s : RMState) (w : World) :
    (∃ v, getCurrentVersion s w =
        .ok ({ s with currentVersion := some v }, w)) ∨
      getCurrentVersion s w = .error (.plistReadError, w) := by
  unfold getCurrentVersion
  split
  · exact Or.inr rfl
  · split
    · exact Or.inl ⟨_, rfl⟩
    · exact Or.inl ⟨_, rfl⟩

theorem calculateNewVersionStep_cases (k : BumpKind) (s : RMState)
    (w : World) :
    (∃ nv tg, calculateNewVersionStep k s w =
        .ok ({ s with newVersion := some nv, tagNameF := some tg }, w)) ∨
      calculateNewVersionStep k s w = .error (.versionCalcError, w) := by
  unfold calculateNewVersionStep
  cases hcv : calculateNewVersion (s.currentVersion.getD []) k with
  | none => exact Or.inr rfl
  | some p =>
    obtain ⟨nv, tg⟩ := p
    exact Or.inl ⟨nv, tg, rfl⟩

theorem updateVersionInPlist_dry {s : RMState} (hdry : s.dryRun = true)
    (w : World) : updateVersionInPlist s w = .ok (s, logEv w .dryRunNote) := by
  unfold updateVersionInPlist
  rw [hdry]
  simp

theorem buildApp_cases (env : Env) (s : RMState) (w : World) :
    buildApp env s w = .ok (s, { w with appExists := env.buildMakesApp }) ∨
      buildApp env s w =
        .error (.buildError, { w with appExists := env.buildMakesApp }) := by
  simp only [buildApp]
  split
  · exact Or.inr rfl
  · split
    · exact Or.inr rfl
    · exact Or.inl rfl

theorem commitVersionBump_dry (env : Env) {s : RMState}
    (hdry : s.dryRun = true) (w : World) :
    commitVersionBump env s w = logEv w .dryRunNote := by
  unfold commitVersionBump
  rw [hdry]
  simp

theorem createTag_dry (env : Env) {s : RMState} (hdry : s.dryRun = true)
    (w : World) : createTag env s w = logEv w .dryRunNote := by
  unfold createTag
  rw [hdry]
  simp

theorem generateReleaseNotes_keyState (env : Env) (s : RMState) (w : World) :
    keyState (generateReleaseNotes env s w).2 = keyState w := by
  unfold generateReleaseNotes
  split <;> rfl

theorem generateReleaseNotes_cases (env : Env) (s : RMState) (w : World) :
    (∃ n, generateReleaseNotes env s w =
        ({ s with releaseNotes := some n }, logEv w .notesFallback)) ∨
      (∃ n, generateReleaseNotes env s w =
        ({ s with releaseNotes := some n }, { w with notesFile := some n })) := by
  unfold generateReleaseNotes
  split
  · exact Or.inl ⟨_, rfl⟩
  · exact Or.inr ⟨_, rfl⟩

theorem generateReleaseNotes_dryRun (env : Env) (s : RMState) (w : World) :
    (generateReleaseNotes env s w).1.dryRun = s.dryRun := by
  unfold generateReleaseNotes
  split <;> rfl

theorem createGithubRelease_dry (env : Env) {s : RMState}
    (hdry : s.dryRun = true) (w : World) :
    createGithubRelease env s w = logEv (logEv w .stepRelease) .dryRunNote := by
  unfold createGithubRelease
  rw [hdry]
  simp

theorem submitToHomebrew_dry (env : Env) {s : RMState}
    (hdry : s.dryRun = true) (w : World) :
    submitToHomebrew env s w = (logEv (logEv w .stepSubmit) .dryRunNote, false) := by
  unfold submitToHomebrew
  rw [hdry]
  simp

theorem keyState_logEv (w : World) (e : Ev) : keyState (logEv w e) = keyState w := rfl

theorem keyState_cleanupStep (w : World) : keyState (cleanupStep w) = keyState w := rfl

set_option maxHeartbeats 1600000 in
/-- **C2 (amended).**  A dry run leaves the metadata file (both plist
version fields), the formula document and the repository/published state
(history, previous tag, tags, committed plist, release record, tap
commits, tap push flag) unchanged, on the success path and on every error
path. -/
theorem dry_run_preserves_key_state (env : Env) (k : BumpKind) (w : World) :
    (match runPipeline env true k w with
      | .ok (_, w') => keyState w' = keyState w
      | .error (_, w') => keyState w' = keyState w) := by
  have hclean : keyState (cleanupStaleResources env w) = keyState w := by
    unfold cleanupStaleResources
    split <;> rfl
  simp only [runPipeline]
  rcases getCurrentVersion_cases
      { currentVersion := none, newVersion := none, tagNameF := none,
        releaseNotes := none, dryRun := true }
      (cleanupStaleResources env w) with ⟨v, hg⟩ | hg <;> rw [hg] <;> dsimp only
  case inr => simpa using hclean
  generalize hw0 : cleanupStaleResources env w = w0
  rw [hw0] at hclean
  rcases calculateNewVersionStep_cases k _ w0 with ⟨nv, tg, hc⟩ | hc <;>
    rw [hc] <;> dsimp only
  case inr => exact hclean
  rw [updateVersionInPlist_dry rfl]
  dsimp only
  generalize hw1 : logEv w0 Ev.dryRunNote = w1
  have hk1 : keyState w1 = keyState w := by rw [← hw1]; exact hclean
  rcases buildApp_cases env _ w1 with hb | hb <;> rw [hb] <;> dsimp only
  case inr => exact hk1
  generalize hw2 : ({ w1 with appExists := env.buildMakesApp } : World) = w2
  have hk2 : keyState w2 = keyState w := by rw [← hw2]; exact hk1
  rw [commitVersionBump_dry env rfl]
  generalize hw3 : logEv w2 Ev.dryRunNote = w3
  have hk3 : keyState w3 = keyState w := by rw [← hw3]; exact hk2
  rw [createTag_dry env rfl]
  generalize hw4 : logEv w3 Ev.dryRunNote = w4
  have hk4 : keyState w4 = keyState w := by rw [← hw4]; exact hk3
  rcases generateReleaseNotes_cases env _ w4 with ⟨n, hn⟩ | ⟨n, hn⟩ <;>
    rw [hn] <;> dsimp only <;>
    rw [createGithubRelease_dry env rfl, submitToHomebrew_dry env rfl] <;>
    rw [if_neg (by decide : ¬ (false = true))] <;>
    simp only [keyState_logEv, keyState_cleanupStep] <;>
    exact hk4

/-- **C2 counterexample.**  The original claim says a dry run creates,
modifies or deletes no file.  False: even with `--dry-run`, the pipeline
unconditionally deletes a stale `WinDock.dmg` (cleanup_stale_resources,
lines 73–106 run before the flag is consulted) and really runs the build,
creating `build/WinDock.app` (build_app, lines 208–239, is not guarded by
`dry_run`); the final state has the DMG gone and the app bundle present. -/
theorem dry_run_not_mutation_free :
    (runPipeline baseEnv true BumpKind.patch
        { baseWorld with dmgExists := true }).toOption.map
      (fun p => (p.2.dmgExists, p.2.appExists)) = some (false, true) ∧
    ({ baseWorld with dmgExists := true } : World).dmgExists = true ∧
    ({ baseWorld with dmgExists := true } : World).appExists = false := by
  decide

/-- A concrete pipeline state after version calculation (new version
`1.0.1`). -/
def notesState : RMState :=
  { currentVersion := some ("1.0.0".toList), newVersion := some ("1.0.1".toList),
    tagNameF := some ("v1.0.1".toList), releaseNotes := none, dryRun := false }

/-- **C5 counterexample.**  The original claim says that on a
history-retrieval failure the fallback notes are a minimal notice *plus
the installation-instructions section*.  False: the `except` handler
(line 508) sets `release_notes` to
`## WinDock {version}\n\nReleased on {date}` only — the resulting notes
contain no `## Installation` section at all. -/
theorem generate_release_notes_claim_false :
    (generateReleaseNotes { baseEnv with logFails := true } notesState
        baseWorld).1.releaseNotes =
      some (fallbackNotes ("1.0.1".toList) ("2025-01-01".toList)) ∧
    ¬ ("## Installation".toList <:+:
        fallbackNotes ("1.0.1".toList) ("2025-01-01".toList)) := by
  decide

theorem install_infix_append (X : Txt) :
    "## Installation".toList <:+: X ++ installSection :=
  List.IsInfix.trans (by decide)
    (List.IsSuffix.isInfix (List.suffix_append X installSection))

/-- **C5 (amended).**  `generate_release_notes` never raises (modelled by
its total, exception-free type): when history retrieval succeeds and no
previous tag exists it produces the `## What's Changed` notes over the
full commit history followed by the installation section, and writes them
to `release_notes.md`; with a previous tag at history index `k` it uses
only the commits strictly between `HEAD` (excluded) and the tagged commit
(excluded); when `git log` fails it falls back to
`## WinDock {version}\n\nReleased on {date}` — *without* an installation
section — and writes no notes file.  On every successful retrieval the
notes contain the `## Installation` section. -/
theorem generate_release_notes_behavior (env : Env) (s : RMState) (w : World) :
    (env.logFails = true →
      (generateReleaseNotes env s w).1.releaseNotes =
        some (fallbackNotes (s.newVersion.getD []) env.today) ∧
      (generateReleaseNotes env s w).2 = logEv w Ev.notesFallback) ∧
    (env.logFails = false → w.prevTag = none →
      (generateReleaseNotes env s w).1.releaseNotes =
        some (whatsChangedHeader ++ commitLines w.history ++ installSection) ∧
      (generateReleaseNotes env s w).2.notesFile =
        some (whatsChangedHeader ++ commitLines w.history ++ installSection)) ∧
    (∀ k, env.logFails = false → w.prevTag = some k →
      (generateReleaseNotes env s w).1.releaseNotes =
        some (whatsChangedHeader ++ commitLines (logRange w.history k) ++
          installSection)) ∧
    (env.logFails = false →
      "## Installation".toList <:+:
        ((generateReleaseNotes env s w).1.releaseNotes.getD [])) := by
  refine ⟨?_, ?_, ?_, ?_⟩
  · intro h
    simp [generateReleaseNotes, h]
  · intro h hpt
    simp [generateReleaseNotes, h, hpt]
  · intro k h hpt
    simp [generateReleaseNotes, h, hpt, logRange]
  · intro h
    rcases hpt : w.prevTag with _ | k <;>
      simp [generateReleaseNotes, h, hpt] <;>
      rw [← List.append_assoc] <;>
      exact install_infix_append _

/-- Witness for C5: the four branch conclusions at concrete inputs. -/
theorem generate_release_notes_behavior_witness :
    ((generateReleaseNotes { baseEnv with logFails := true } notesState
        baseWorld).1.releaseNotes =
      some (fallbackNotes (notesState.newVersion.getD [])
        ({ baseEnv with logFails := true } : Env).today)) ∧
    ((generateReleaseNotes baseEnv notesState baseWorld).1.releaseNotes =
      some (whatsChangedHeader ++ commitLines baseWorld.history ++
        installSection)) ∧
    ((generateReleaseNotes baseEnv notesState
        { baseWorld with prevTag := some 1 }).1.releaseNotes =
      some (whatsChangedHeader ++
        commitLines (logRange ({ baseWorld with prevTag := some 1 } :
          World).history 1) ++ installSection)) ∧
    ("## Installation".toList <:+:
      ((generateReleaseNotes baseEnv notesState
        baseWorld).1.releaseNotes.getD [])) :=
  ⟨((generate_release_notes_behavior _ _ _).1 rfl).1,
   ((generate_release_notes_behavior _ _ _).2.1 rfl rfl).1,
   (generate_release_notes_behavior _ _ _).2.2.1 1 rfl rfl,
   (generate_release_notes_behavior _ _ _).2.2.2 rfl⟩

/-- **C9.**  `main` (lines 884-912): whenever the release run raises, the
entry point prints the error, attempts `git restore Info.plist`, and —
when the restore succeeds — returns normally, so the interpreter exits
with status zero and the plist fields are back at their committed values;
the restore call itself runs with `check=True` and no surrounding
handler, so when it fails its `CalledProcessError` is unhandled and the
exit status is non-zero. -/
theorem main_error_path (env : Env) (dry : Bool) (k : BumpKind) (w : World)
    (herr : (runPipeline env dry k w).toOption = none) :
    (mainModel env dry k w).printedError = true ∧
    (mainModel env dry k w).restoreAttempted = true ∧
    (mainModel env dry k w).exitedZero = env.restoreOk ∧
    (env.restoreOk = false → (mainModel env dry k w).exitedZero = false) ∧
    (∀ e w2, runPipeline env dry k w = .error (e, w2) →
      env.restoreOk = true →
      (mainModel env dry k w).world.plistShort = w2.headShort ∧
      (mainModel env dry k w).world.plistBuild = w2.headBuild) := by
  rcases hr : runPipeline env dry k w with ⟨e0, w0⟩ | p
  case ok =>
    rw [hr] at herr
    simp [Except.toOption] at herr
  case error =>
    rcases hro : env.restoreOk
    · refine ⟨by simp [mainModel, hr, hro], by simp [mainModel, hr, hro],
        by simp [mainModel, hr, hro], by simp [mainModel, hr, hro], ?_⟩
      intro e w2 he hrt
      cases hrt
    · refine ⟨by simp [mainModel, hr, hro], by simp [mainModel, hr, hro],
        by simp [mainModel, hr, hro], by simp [hro], ?_⟩
      intro e w2 he _
      simp only [Except.error.injEq, Prod.mk.injEq] at he
      obtain ⟨rfl, rfl⟩ := he
      simp [mainModel, hr, hro]

/-- Witness for C9: a failing build with a failing restore — the error is
printed, the restore is attempted, and the exit status is non-zero. -/
theorem main_error_path_witness :
    ((runPipeline { baseEnv with buildMakesApp := false, restoreOk := false }
        false BumpKind.patch baseWorld).toOption = none) ∧
    ((mainModel { baseEnv with buildMakesApp := false, restoreOk := false }
        false BumpKind.patch baseWorld).printedError = true ∧
      (mainModel { baseEnv with buildMakesApp := false, restoreOk := false }
        false BumpKind.patch baseWorld).restoreAttempted = true ∧
      (mainModel { baseEnv with buildMakesApp := false, restoreOk := false }
        false BumpKind.patch baseWorld).exitedZero = false) :=
  ⟨by decide, by
    have h := main_error_path
      { baseEnv with buildMakesApp := false, restoreOk := false }
      false BumpKind.patch baseWorld (by decide)
    exact ⟨h.1, h.2.1, h.2.2.2.1 rfl⟩⟩
